import Mathlib

/-!
Verification of the JsonReader core (JsonReader.h / JsonReader.cpp): a lazy
tree materializer over parsed JSON documents, a pending-expansion registry
keyed by tree-node identity, a breadth-first resumable search, and a
pre-order flatten used for clipboard export.

Shallow embedding notes:
* simdjson dom elements are modeled by the inductive JsonValue; a double is
  carried as a rational number (every IEEE double is a binary rational).
* QTreeWidgetItem objects are modeled by DNode values carrying a numeric
  identity (C++ object identity, i.e. the pointer, becomes the id field;
  fresh ids play the role of fresh allocations).  The QMap from items to
  dom elements becomes an association list keyed by id.
* Qt visibility state (isExpanded flags) is not represented: nothing in the
  source ever reads it, and the itemExpanded slot re-entered through
  setExpanded on an ancestor of a found match is always a no-op because
  every ancestor of a materialized node has already been drained from the
  registry.  Selection, scroll target and the search cursor are modeled
  explicitly.
-/

/-- RGB triple standing for a QColor literal. -/
abbrev QColor := Nat × Nat × Nat

/-- Model of a parsed simdjson dom element (element_type discriminants
INT64, UINT64, DOUBLE, STRING, BOOL, NULL_VALUE, ARRAY, OBJECT, plus the
defensive default branch of the switch in get_json_element_display). -/
inductive JsonValue where
  | int64 (i : Int)
  | uint64 (u : Nat)
  | double (d : ℚ)
  | str (s : String)
  | bool (b : Bool)
  | null
  | arr (elems : List JsonValue)
  | obj (fields : List (String × JsonValue))
  | unknown

/-- Discriminant test used at line 133 of JsonReader.h:
value.type() == OBJECT || value.type() == ARRAY. -/
def JsonValue.isContainer : JsonValue → Bool
  | .arr _ => true
  | .obj _ => true
  | _ => false

/-- Left-pad a digit string with zeros to width 6. -/
def pad6 (s : String) : String :=
  String.mk (List.replicate (6 - s.length) '0') ++ s

/-- Behaviour of std::to_string on a double: sprintf with format percent-f,
i.e. fixed-point notation with exactly six fractional digits, rounding the
value to the nearest multiple of 10^-6.  Modeled on the rational carried by
the double.  (Ties cannot arise for an actual IEEE double: a tie would need
a denominator divisible by 5^7, which no binary rational has, so the
half-up rounding below agrees with the C library on every double.) -/
def fixed6 (q : ℚ) : String :=
  let sign := if q.num < 0 then "-" else ""
  let na : Nat := q.num.natAbs
  let m : Nat := (2 * na * 1000000 + q.den) / (2 * q.den)
  sign ++ toString (m / 1000000) ++ "." ++ pad6 (toString (m % 1000000))

/-- Display record built by get_json_element_display (JsonReader.h:45-48). -/
structure JsonElementDisplay where
  value : String
  color : QColor

/-- Translation of JsonReader.h:53-96.  std::to_string on int64_t/uint64_t
is the canonical base-10 rendering, modeled by toString on Int/Nat;
std::to_string on double is fixed6 above. -/
def get_json_element_display : JsonValue → JsonElementDisplay
  | .int64 i => ⟨toString i, (0, 0, 255)⟩
  | .uint64 u => ⟨toString u, (0, 0, 255)⟩
  | .double d => ⟨fixed6 d, (0, 103, 156)⟩
  | .str s => ⟨s, (128, 128, 255)⟩
  | .bool b => ⟨if b then "true" else "false", (255, 0, 255)⟩
  | .null => ⟨"null", (128, 128, 128)⟩
  | .arr _ => ⟨"ARRAY", (255, 0, 0)⟩
  | .obj _ => ⟨"OBJECT", (48, 186, 143)⟩
  | .unknown => ⟨"UNKNOWN_TYPE", (0, 0, 0)⟩

/-- Model of a QTreeWidgetItem: identity (the pointer), the column-0 text,
the foreground color if one was ever set, and the ordered children. -/
inductive DNode where
  | mk (id : Nat) (label : String) (color : Option QColor) (children : List DNode)

def DNode.id : DNode → Nat
  | .mk i _ _ _ => i

def DNode.label : DNode → String
  | .mk _ l _ _ => l

def DNode.color : DNode → Option QColor
  | .mk _ _ c _ => c

def DNode.children : DNode → List DNode
  | .mk _ _ _ cs => cs

mutual

/-- Number of QTreeWidgetItem objects in a subtree. -/
def sizeDN : DNode → Nat
  | .mk _ _ _ cs => 1 + sizeList cs

def sizeList : List DNode → Nat
  | [] => 0
  | c :: cs => sizeDN c + sizeList cs

end

mutual

/-- Translation of copy_recursive (JsonReader.h:99-113): start from the
one-element list holding this item's text and append, child by child, the
recursively flattened children. -/
def copy_recursive : DNode → List String
  | .mk _ text _ children => copy_children children [text]

/-- The for-loop of copy_recursive: append each child's flattened list. -/
def copy_children : List DNode → List String → List String
  | [], pairs => pairs
  | c :: cs, pairs => copy_children cs (pairs ++ copy_recursive c)

end

mutual

/-- Modelled from the spec: flatten(node) is the depth-first pre-order
sequence of the node's label followed by the flattened sequences of its
children in order.  Used only to compare against copy_recursive. -/
def flattenSpec : DNode → List String
  | .mk _ text _ children => text :: flattenSpecList children

def flattenSpecList : List DNode → List String
  | [] => []
  | c :: cs => flattenSpec c ++ flattenSpecList cs

end

/-- The itemElementMap member (JsonReader.h:42): QMap from item identity to
the unexpanded dom element. -/
abbrev ItemElementMap := List (Nat × JsonValue)

/-- QMap::remove. -/
def regErase (k : Nat) (m : ItemElementMap) : ItemElementMap :=
  m.filter (fun e => e.1 != k)

/-- QMap::insert (replaces any existing entry for the key). -/
def regInsert (k : Nat) (v : JsonValue) (m : ItemElementMap) : ItemElementMap :=
  (k, v) :: regErase k m

/-- QMap::value, guarded by QMap::contains at every call site. -/
def regLookup (k : Nat) (m : ItemElementMap) : Option JsonValue :=
  (m.find? (fun e => e.1 == k)).map Prod.snd

/-- QMap::contains. -/
def regContains (k : Nat) (m : ItemElementMap) : Bool :=
  (regLookup k m).isSome

/-- Translation of the add_child lambda (JsonReader.h:119-137).  A fresh
child item (identity nid) is appended to item carrying key + ": " + the
formatted value and the category color; a container value additionally gets
a fresh placeholder child (identity nid + 1, empty text, no children) and
is registered in the map. -/
def add_child (key : String) (value : JsonValue) (item : DNode)
    (m : ItemElementMap) (nid : Nat) : DNode × ItemElementMap × Nat :=
  let elementDisplay := get_json_element_display value
  let text := key ++ ": " ++ elementDisplay.value
  if value.isContainer then
    let child : DNode := .mk nid text (some elementDisplay.color)
      [.mk (nid + 1) "" none []]
    (.mk item.id item.label item.color (item.children ++ [child]),
      regInsert nid value m, nid + 2)
  else
    let child : DNode := .mk nid text (some elementDisplay.color) []
    (.mk item.id item.label item.color (item.children ++ [child]), m, nid + 1)

/-- The object loop of add_children_to_item (JsonReader.h:140-145). -/
def addObjChildren : List (String × JsonValue) → DNode → ItemElementMap → Nat →
    DNode × ItemElementMap × Nat
  | [], item, m, nid => (item, m, nid)
  | kv :: fs, item, m, nid =>
    let r := add_child kv.1 kv.2 item m nid
    addObjChildren fs r.1 r.2.1 r.2.2

/-- The array loop of add_children_to_item (JsonReader.h:147-153); the key
is the decimal rendering of the running zero-based index. -/
def addArrChildren : List JsonValue → Nat → DNode → ItemElementMap → Nat →
    DNode × ItemElementMap × Nat
  | [], _, item, m, nid => (item, m, nid)
  | v :: vs, index, item, m, nid =>
    let r := add_child (toString index) v item m nid
    addArrChildren vs (index + 1) r.1 r.2.1 r.2.2

/-- Translation of add_children_to_item (JsonReader.h:116-154): materialize
one level of element as children of item.  Scalars produce no children. -/
def add_children_to_item (item : DNode) (element : JsonValue)
    (m : ItemElementMap) (nid : Nat) : DNode × ItemElementMap × Nat :=
  match element with
  | .obj fields => addObjChildren fields item m nid
  | .arr elems => addArrChildren elems 0 item m nid
  | _ => (item, m, nid)

/-- The placeholder-removal step of on_treeWidget_itemExpanded
(JsonReader.cpp:67-70): if the item has a single child whose text is empty,
delete that child. -/
def removePlaceholder (item : DNode) : DNode :=
  match item.children with
  | [c] => if c.label == "" then DNode.mk item.id item.label item.color [] else item
  | _ => item

/-- Translation of on_treeWidget_itemExpanded (JsonReader.cpp:62-79) acting
on the one item it receives: if the item is registered, drop the single
empty-text placeholder child if it is the only child, materialize the real
children, and finally remove the item's registry entry. -/
def expandItem (item : DNode) (m : ItemElementMap) (nid : Nat) :
    DNode × ItemElementMap × Nat :=
  match regLookup item.id m with
  | none => (item, m, nid)
  | some element =>
    let r := add_children_to_item (removePlaceholder item) element m nid
    (r.1, regErase item.id r.2.1, r.2.2)

-- Sanity checks on the materializer (structural definitions reduce).
example :
    (add_children_to_item (.mk 0 "" none []) (.obj [("a", .int64 1), ("b", .int64 2)]) [] 1).1
      = .mk 0 "" none
          [.mk 1 "a: 1" (some (0, 0, 255)) [], .mk 2 "b: 2" (some (0, 0, 255)) []] := rfl

example :
    (add_children_to_item (.mk 0 "" none []) (.arr [.int64 10, .int64 20]) [] 1).1
      = .mk 0 "" none
          [.mk 1 "0: 10" (some (0, 0, 255)) [], .mk 2 "1: 20" (some (0, 0, 255)) []] := rfl

example : fixed6 ⟨3, 2, by decide, by decide⟩ = "1.500000" := by decide

mutual

/-- Dispatch of the itemExpanded slot to the one item it was emitted for:
apply expandItem at every node whose identity is the target (states built
by the program have unique identities, so this is the single Qt item). -/
def expandNode (target : Nat) : DNode → ItemElementMap → Nat →
    DNode × ItemElementMap × Nat
  | n, m, nid =>
    if n.id = target then expandItem n m nid
    else
      match n with
      | .mk i l c cs =>
        let r := expandList target cs m nid
        (.mk i l c r.1, r.2.1, r.2.2)

def expandList (target : Nat) : List DNode → ItemElementMap → Nat →
    List DNode × ItemElementMap × Nat
  | [], m, nid => ([], m, nid)
  | n :: ns, m, nid =>
    let r := expandNode target n m nid
    let r' := expandList target ns r.2.1 r.2.2
    (r.1 :: r'.1, r'.2.1, r'.2.2)

end

/-- The tree-owning part of the JsonReader state: the top-level items of
ui.treeWidget, the itemElementMap, and the next fresh identity. -/
structure TreeState where
  topLevel : List DNode
  itemElementMap : ItemElementMap
  nextId : Nat

/-- Translation of on_loadBtn_clicked (JsonReader.cpp:13-40), successful
parse path: a fresh root item with empty text, one materialized level of
the document, inserted at position 0 of the top-level items. -/
def on_loadBtn_clicked (doc : JsonValue) (st : TreeState) : TreeState :=
  let root : DNode := .mk st.nextId "" none []
  let r := add_children_to_item root doc st.itemElementMap (st.nextId + 1)
  ⟨r.1 :: st.topLevel, r.2.1, r.2.2⟩

/-- Translation of on_treeWidget_itemExpanded (JsonReader.cpp:62-79) at the
level of the whole widget state, the expanded item given by identity. -/
def on_treeWidget_itemExpanded (target : Nat) (st : TreeState) : TreeState :=
  let r := expandList target st.topLevel st.itemElementMap st.nextId
  ⟨r.1, r.2.1, r.2.2⟩

/-- States of the tree and registry reachable by the program.  Every
mutation of the tree or of itemElementMap in the source happens inside
add_children_to_item (called from the load slot and from the itemExpanded
slot) or on_treeWidget_itemExpanded itself; searchTree mutates them only by
invoking the itemExpanded slot on the items it dequeues (JsonReader.h:193),
so the tree/registry part of any state the program passes through is a
composition of these two steps from the empty initial state. -/
inductive ReachableTree : TreeState → Prop
  | init : ReachableTree ⟨[], [], 0⟩
  | load (doc : JsonValue) (st : TreeState) :
      ReachableTree st → ReachableTree (on_loadBtn_clicked doc st)
  | expand (target : Nat) (st : TreeState) :
      ReachableTree st → ReachableTree (on_treeWidget_itemExpanded target st)

mutual

/-- Termination weight of a dom element: each member of a container costs
its own weight plus 3, and a container costs 3 more than its members. -/
def jsonWeight : JsonValue → Nat
  | .arr xs => 3 + jsonWeightElems xs
  | .obj fs => 3 + jsonWeightFields fs
  | _ => 1

def jsonWeightElems : List JsonValue → Nat
  | [] => 0
  | x :: xs => 3 + jsonWeight x + jsonWeightElems xs

def jsonWeightFields : List (String × JsonValue) → Nat
  | [] => 0
  | kv :: fs => 3 + jsonWeight kv.2 + jsonWeightFields fs

end

/-- Total weight of the registry contents. -/
def regWeight : ItemElementMap → Nat
  | [] => 0
  | e :: es => jsonWeight e.2 + regWeight es

theorem sizeList_append (a b : List DNode) :
    sizeList (a ++ b) = sizeList a + sizeList b := by
  induction a with
  | nil => simp [sizeList]
  | cons c cs ih => simp [sizeList, ih]; omega

theorem sizeDN_eq (n : DNode) : sizeDN n = 1 + sizeList n.children := by
  cases n with
  | mk i l c cs => rfl

theorem sizeDN_pos (n : DNode) : 1 ≤ sizeDN n := by
  rw [sizeDN_eq]; omega

theorem regWeight_sublist {a b : ItemElementMap} (h : a.Sublist b) :
    regWeight a ≤ regWeight b := by
  induction h with
  | slnil => exact Nat.le_refl _
  | cons e _ ih => simp only [regWeight]; omega
  | cons₂ e _ ih => simp only [regWeight]; omega

theorem regWeight_erase_le (k : Nat) (m : ItemElementMap) :
    regWeight (regErase k m) ≤ regWeight m :=
  regWeight_sublist (List.filter_sublist m)

theorem regWeight_erase_lookup (k : Nat) (m : ItemElementMap) (v : JsonValue)
    (h : regLookup k m = some v) :
    regWeight (regErase k m) + jsonWeight v ≤ regWeight m := by
  induction m with
  | nil => simp [regLookup] at h
  | cons e es ih =>
    simp only [regLookup, List.find?_cons] at h
    cases hk : (e.1 == k) with
    | true =>
      rw [hk] at h
      simp only [Option.map_some] at h
      have hbne : (e.1 != k) = false := by simp [bne, hk]
      simp only [regErase, List.filter_cons, hbne, if_neg, Bool.false_eq_true,
        not_false_eq_true, regWeight]
      have h2 := regWeight_erase_le k es
      simp only [regErase] at h2
      have hv : e.2 = v := by simpa using h
      rw [← hv]
      omega
    | false =>
      rw [hk] at h
      have ih2 := ih (by simpa [regLookup] using h)
      have hbne : (e.1 != k) = true := by simp [bne, hk]
      simp only [regErase, List.filter_cons, hbne, if_pos, regWeight] at *
      omega

theorem regWeight_erase_insert (k k' : Nat) (v : JsonValue) (m : ItemElementMap) :
    regWeight (regErase k (regInsert k' v m)) ≤
      jsonWeight v + regWeight (regErase k m) := by
  have hsub : regErase k (regErase k' m) |>.Sublist (regErase k m) := by
    simp only [regErase]
    rw [List.filter_filter]
    have : List.filter (fun a => a.1 != k && a.1 != k') m
        |>.Sublist (List.filter (fun a => a.1 != k) m) := by
      induction m with
      | nil => exact List.Sublist.refl _
      | cons e es ih =>
        simp only [List.filter_cons]
        cases h1 : (e.1 != k) with
        | true =>
          cases h2 : (e.1 != k') with
          | true => simpa using ih.cons₂ e
          | false => simpa using ih.cons e
        | false => simpa using ih
    simpa using this
  have hW := regWeight_sublist hsub
  simp only [regInsert, regErase, List.filter_cons]
  cases hkk : (((k', v) : Nat × JsonValue).1 != k) with
  | true =>
    simp only [if_pos, regWeight]
    simp only [regErase] at hW
    omega
  | false =>
    simp only [Bool.false_eq_true, if_neg, not_false_eq_true]
    simp only [regErase] at hW
    omega

theorem add_child_cost (key : String) (value : JsonValue) (item : DNode)
    (m : ItemElementMap) (nid k : Nat) :
    sizeDN (add_child key value item m nid).1 +
      regWeight (regErase k (add_child key value item m nid).2.1) ≤
    sizeDN item + regWeight (regErase k m) + 3 + jsonWeight value := by
  cases hc : value.isContainer with
  | true =>
    have h1 := regWeight_erase_insert k nid value m
    simp only [add_child, hc, if_pos, sizeDN, sizeList, sizeList_append]
    rw [sizeDN_eq item]
    omega
  | false =>
    simp only [add_child, hc, Bool.false_eq_true, if_neg, not_false_eq_true,
      sizeDN, sizeList, sizeList_append]
    rw [sizeDN_eq item]
    have : 1 ≤ jsonWeight value := by
      cases value <;> simp [jsonWeight] <;> omega
    omega

theorem addObjChildren_cost (fs : List (String × JsonValue)) (item : DNode)
    (m : ItemElementMap) (nid k : Nat) :
    sizeDN (addObjChildren fs item m nid).1 +
      regWeight (regErase k (addObjChildren fs item m nid).2.1) ≤
    sizeDN item + regWeight (regErase k m) + jsonWeightFields fs := by
  induction fs generalizing item m nid with
  | nil => simp [addObjChildren, jsonWeightFields]
  | cons kv fs ih =>
    simp only [addObjChildren, jsonWeightFields]
    have h1 := add_child_cost kv.1 kv.2 item m nid k
    have h2 := ih (add_child kv.1 kv.2 item m nid).1
      (add_child kv.1 kv.2 item m nid).2.1 (add_child kv.1 kv.2 item m nid).2.2
    omega

theorem addArrChildren_cost (vs : List JsonValue) (index : Nat) (item : DNode)
    (m : ItemElementMap) (nid k : Nat) :
    sizeDN (addArrChildren vs index item m nid).1 +
      regWeight (regErase k (addArrChildren vs index item m nid).2.1) ≤
    sizeDN item + regWeight (regErase k m) + jsonWeightElems vs := by
  induction vs generalizing index item m nid with
  | nil => simp [addArrChildren, jsonWeightElems]
  | cons v vs ih =>
    simp only [addArrChildren, jsonWeightElems]
    have h1 := add_child_cost (toString index) v item m nid k
    have h2 := ih (index + 1) (add_child (toString index) v item m nid).1
      (add_child (toString index) v item m nid).2.1
      (add_child (toString index) v item m nid).2.2
    omega

theorem add_children_to_item_cost (element : JsonValue) (item : DNode)
    (m : ItemElementMap) (nid k : Nat) :
    sizeDN (add_children_to_item item element m nid).1 +
      regWeight (regErase k (add_children_to_item item element m nid).2.1) + 1 ≤
    sizeDN item + regWeight (regErase k m) + jsonWeight element := by
  cases element with
  | obj fields =>
    have := addObjChildren_cost fields item m nid k
    simp only [add_children_to_item, jsonWeight]
    omega
  | arr elems =>
    have := addArrChildren_cost elems 0 item m nid k
    simp only [add_children_to_item, jsonWeight]
    omega
  | int64 i => simp [add_children_to_item, jsonWeight]
  | uint64 u => simp [add_children_to_item, jsonWeight]
  | double d => simp [add_children_to_item, jsonWeight]
  | str s => simp [add_children_to_item, jsonWeight]
  | bool b => simp [add_children_to_item, jsonWeight]
  | null => simp [add_children_to_item, jsonWeight]
  | unknown => simp [add_children_to_item, jsonWeight]

theorem removePlaceholder_size (item : DNode) :
    sizeDN (removePlaceholder item) ≤ sizeDN item := by
  rcases hch : item.children with _ | ⟨c, _ | ⟨c2, cs⟩⟩ <;>
    simp only [removePlaceholder, hch]
  · exact Nat.le_refl _
  · cases hlab : (c.label == "") with
    | true =>
      simp only [hlab, if_true]
      rw [sizeDN_eq item, hch]
      have hc := sizeDN_pos c
      simp only [sizeDN, sizeList]
      omega
    | false => simp [hlab]
  · exact Nat.le_refl _

theorem expandItem_cost (item : DNode) (m : ItemElementMap) (nid : Nat) :
    sizeDN (expandItem item m nid).1 + regWeight (expandItem item m nid).2.1 + 1 ≤
      sizeDN item + regWeight m ∨
    expandItem item m nid = (item, m, nid) := by
  cases hl : regLookup item.id m with
  | none => right; simp [expandItem, hl]
  | some v =>
    left
    have hlk := regWeight_erase_lookup item.id m v hl
    have h1 := add_children_to_item_cost v (removePlaceholder item) m nid item.id
    have h2 := removePlaceholder_size item
    simp only [expandItem, hl]
    omega

theorem expandItem_le (item : DNode) (m : ItemElementMap) (nid : Nat) :
    sizeDN (expandItem item m nid).1 + regWeight (expandItem item m nid).2.1 ≤
      sizeDN item + regWeight m := by
  rcases expandItem_cost item m nid with h | h
  · omega
  · rw [h]

def leadsWith : List Char → List Char → Bool
  | [], _ => true
  | _ :: _, [] => false
  | a :: as, b :: bs => a == b && leadsWith as bs

def hasSub (needle : List Char) : List Char → Bool
  | [] => leadsWith needle []
  | b :: t => leadsWith needle (b :: t) || hasSub needle t

/-- QString::contains(searchText, cs) (JsonReader.h:177): substring
containment, with case folding (modeled by Char.toLower) when the search is
case-insensitive. -/
def qContains (hay needle : String) (cs : Bool) : Bool :=
  if cs then hasSub needle.data hay.data
  else hasSub (needle.data.map Char.toLower) (hay.data.map Char.toLower)

/-- Full state of the JsonReader window: the tree-owning part plus the
query text edit, the search cursor (JsonReader.h:38-39), Qt selection and
scroll state, the radioCapital button and the tree widget's current item. -/
structure AppState where
  tree : TreeState
  editText : String
  lastSearchText : String
  lastMatch : Option Nat
  selected : List Nat
  scrolledTo : Option Nat
  caseSensitive : Bool
  currentItem : Option Nat

/-- Translation of the BFS loop of searchTree (JsonReader.h:166-200).  The
queue holds the items still to visit; started is false while the traversal
is skipping forward to the stored last match.  A dequeued item is tested
only when started was already true at dequeue time (the resume boundary
item flips started but is itself never tested, JsonReader.h:172-176).  On a
match the selection is replaced by the matched item, the view scrolls to
it, it becomes the new last match and the search returns true immediately.
Otherwise the item is expanded through the itemExpanded slot if pending
(JsonReader.h:192-194) and its — then materialized — children are
enqueued.  The ancestor setExpanded walk of lines 181-185 only toggles Qt
visibility flags (re-entering the itemExpanded slot on already-drained
ancestors), so it has no counterpart in the model. -/
def searchAux (searchText : String) (cs : Bool) :
    List DNode → Bool → AppState → Bool × AppState
  | [], _, app => (false, app)
  | current :: rest, started, app =>
    if started && qContains current.label searchText cs then
      (true, { app with selected := [current.id], scrolledTo := some current.id,
                        lastMatch := some current.id })
    else
      let started' := started || (app.lastMatch == some current.id)
      let r := expandItem current app.tree.itemElementMap app.tree.nextId
      searchAux searchText cs (rest ++ r.1.children) started'
        { app with tree := ⟨app.tree.topLevel, r.2.1, r.2.2⟩ }
termination_by q _ app => sizeList q + regWeight app.tree.itemElementMap
decreasing_by
  simp only [sizeList_append]
  rcases expandItem_cost current app.tree.itemElementMap app.tree.nextId with h | h
  · have he := sizeDN_eq (expandItem current app.tree.itemElementMap app.tree.nextId).1
    simp only [sizeList]
    omega
  · rw [h]
    have he := sizeDN_eq current
    simp only [sizeList]
    omega

/-- Translation of searchTree (JsonReader.h:158-203); the searchArrays
parameter is unused in the source and kept unused here.  Case sensitivity
is read from the radioCapital button (JsonReader.h:164). -/
def searchTree (item : DNode) (searchText : String) (startFromCurrent : Bool)
    (searchArrays : Bool) (app : AppState) : Bool × AppState :=
  searchAux searchText app.caseSensitive [item] (!startFromCurrent) app

/-- The sequence of items the BFS of searchTree dequeues (each one in its
expanded form), together with the registry and fresh-identity counter left
after the whole traversal. -/
def bfsFull : List DNode → ItemElementMap → Nat →
    List DNode × ItemElementMap × Nat
  | [], m, nid => ([], m, nid)
  | current :: rest, m, nid =>
    let r := expandItem current m nid
    let rest' := bfsFull (rest ++ r.1.children) r.2.1 r.2.2
    (r.1 :: rest'.1, rest'.2.1, rest'.2.2)
termination_by qq mm _ => sizeList qq + regWeight mm
decreasing_by
  simp only [sizeList_append]
  rcases expandItem_cost n m nid with h | h
  · have he := sizeDN_eq (expandItem n m nid).1
    simp only [sizeList]
    omega
  · rw [h]
    have he := sizeDN_eq n
    simp only [sizeList]
    omega

/-- The items the BFS visits, in visit order. -/
def bfsVisits (q : List DNode) (m : ItemElementMap) (nid : Nat) : List DNode :=
  (bfsFull q m nid).1

/-- Expansion pass over one whole BFS level, left to right. -/
def expandAll : List DNode → ItemElementMap → Nat →
    List DNode × ItemElementMap × Nat
  | [], m, nid => ([], m, nid)
  | c :: cs, m, nid =>
    let r := expandItem c m nid
    let r' := expandAll cs r.2.1 r.2.2
    (r.1 :: r'.1, r'.2.1, r'.2.2)

def childrenOf (ns : List DNode) : List DNode :=
  (ns.map DNode.children).flatten

theorem expandAll_le (q : List DNode) (m : ItemElementMap) (nid : Nat) :
    sizeList (expandAll q m nid).1 + regWeight (expandAll q m nid).2.1 ≤
      sizeList q + regWeight m := by
  induction q generalizing m nid with
  | nil => simp [expandAll]
  | cons c cs ih =>
    simp only [expandAll, sizeList]
    have h1 := expandItem_le c m nid
    have h2 := ih (expandItem c m nid).2.1 (expandItem c m nid).2.2
    omega

theorem sizeList_childrenOf (ns : List DNode) :
    sizeList (childrenOf ns) + ns.length = sizeList ns := by
  induction ns with
  | nil => simp [childrenOf, sizeList]
  | cons c cs ih =>
    simp only [childrenOf, List.map_cons, List.flatten_cons, sizeList_append,
      List.length_cons, sizeList] at *
    have := sizeDN_eq c
    omega

theorem expandAll_length (q : List DNode) (m : ItemElementMap) (nid : Nat) :
    (expandAll q m nid).1.length = q.length := by
  induction q generalizing m nid with
  | nil => simp [expandAll]
  | cons c cs ih => simp [expandAll, ih]

/-- The BFS levels: the items of each depth in left-to-right order, each in
its expanded form, depth by depth, with the registry threaded through in
exactly the order searchTree performs the expansions. -/
def levelsE : List DNode → ItemElementMap → Nat → List (List DNode)
  | [], _, _ => []
  | c :: cs, m, nid =>
    let r := expandAll (c :: cs) m nid
    r.1 :: levelsE (childrenOf r.1) r.2.1 r.2.2
termination_by qq mm _ => sizeList qq + regWeight mm
decreasing_by
  have h1 := expandAll_le (n :: ns) m nid
  have h2 := sizeList_childrenOf (expandAll (n :: ns) m nid).1
  have h3 := expandAll_length (n :: ns) m nid
  simp only [List.length_cons] at h3
  have h4 : 0 < sizeList (n :: ns) := by
    have := sizeDN_pos n
    simp only [sizeList]
    omega
  omega

/-- Observable outcome of a click on the search-next button: the guard
return of JsonReader.cpp:139-141 (notRun), the early return after a next
match was shown (nextShown), or the fall-through qInfo "No further matches
found" (noFurther). -/
inductive SearchNextOutcome where
  | notRun
  | nextShown
  | noFurther
deriving DecidableEq

/-- The loop over top-level items of on_searchNextBtn_clicked
(JsonReader.cpp:144-163), threading the pastCurrentMatch flag. -/
def searchNextLoop (searchText : String) :
    List DNode → Bool → AppState → AppState × SearchNextOutcome
  | [], _, app => (app, .noFurther)
  | root :: roots, pastCurrentMatch, app =>
    let r := searchTree root searchText (!pastCurrentMatch) false app
    if r.1 then
      if pastCurrentMatch then (r.2, .nextShown)
      else if r.2.lastMatch == some root.id then
        searchNextLoop searchText roots true r.2
      else
        searchNextLoop searchText roots pastCurrentMatch r.2
    else
      searchNextLoop searchText roots pastCurrentMatch r.2

/-- Translation of on_searchNextBtn_clicked (JsonReader.cpp:133-167). -/
def on_searchNextBtn_clicked (app : AppState) : AppState × SearchNextOutcome :=
  let searchText := app.editText
  if searchText = "" ∨ searchText ≠ app.lastSearchText then (app, .notRun)
  else
    let pastCurrentMatch := app.lastMatch.isNone
    searchNextLoop searchText app.tree.topLevel pastCurrentMatch app

/-- Observable outcome of a change of the query text: the empty-text early
return (noText), a search that found and recorded a match (foundMatch), or
the qInfo "Search text not found" fall-through (notFound). -/
inductive TextSearchOutcome where
  | noText
  | foundMatch
  | notFound
deriving DecidableEq

/-- The loop over top-level items of on_textEdit_textChanged
(JsonReader.cpp:96-104), stopping at the first successful search. -/
def textChangedLoop (searchText : String) :
    List DNode → AppState → Bool × AppState
  | [], app => (false, app)
  | root :: roots, app =>
    let r := searchTree root searchText false true app
    if r.1 then (true, r.2)
    else textChangedLoop searchText roots r.2

mutual

/-- Resolution of a stored item identity to the item it denotes (pre-order
first occurrence), modeling the dereference of the currentItem pointer. -/
def findNode (target : Nat) : List DNode → Option DNode
  | [] => none
  | n :: ns =>
    match findInNode target n with
    | some r => some r
    | none => findNode target ns

def findInNode (target : Nat) : DNode → Option DNode
  | .mk i l c cs =>
    if i = target then some (.mk i l c cs) else findNode target cs

end

/-- Translation of on_textEdit_textChanged (JsonReader.cpp:82-117): empty
text returns immediately; with a current item the search starts there,
otherwise each top-level item is tried in turn; only a successful search
records the query as lastSearchText.  (A currentItem identity that denotes
no live item cannot arise in the program; the model returns notFound.) -/
def on_textEdit_textChanged (app : AppState) : AppState × TextSearchOutcome :=
  let searchText := app.editText
  if searchText = "" then (app, .noText)
  else
    match app.currentItem with
    | none =>
      let r := textChangedLoop searchText app.tree.topLevel app
      if r.1 then ({ r.2 with lastSearchText := searchText }, .foundMatch)
      else (r.2, .notFound)
    | some cid =>
      match findNode cid app.tree.topLevel with
      | none => (app, .notFound)
      | some startItem =>
        let r := searchTree startItem searchText false true app
        if r.1 then ({ r.2 with lastSearchText := searchText }, .foundMatch)
        else (r.2, .notFound)

/-- Translation of on_radioCapital_toggled (JsonReader.cpp:120-130): a
toggle with text present re-runs the textChanged search. -/
def on_radioCapital_toggled (checked : Bool) (app : AppState) : AppState :=
  if app.editText ≠ "" then (on_textEdit_textChanged app).1 else app

theorem copy_joint (k : Nat) :
    (∀ n : DNode, sizeDN n ≤ k → copy_recursive n = flattenSpec n) ∧
    (∀ cs : List DNode, sizeList cs ≤ k → ∀ pairs,
      copy_children cs pairs = pairs ++ flattenSpecList cs) := by
  induction k with
  | zero =>
    constructor
    · intro n h
      have := sizeDN_pos n
      omega
    · intro cs h pairs
      cases cs with
      | nil => simp [copy_children, flattenSpecList]
      | cons c cs' =>
        have := sizeDN_pos c
        simp only [sizeList] at h
        omega
  | succ k ih =>
    have hA : ∀ n : DNode, sizeDN n ≤ k + 1 → copy_recursive n = flattenSpec n := by
      intro n h
      cases n with
      | mk i l co cs =>
        have hcs : sizeList cs ≤ k := by
          simp only [sizeDN] at h
          omega
        simp only [copy_recursive, flattenSpec]
        rw [ih.2 cs hcs]
        simp
    refine ⟨hA, ?_⟩
    intro cs h pairs
    cases cs with
    | nil => simp [copy_children, flattenSpecList]
    | cons c cs' =>
      have hc := sizeDN_pos c
      simp only [sizeList] at h
      have h1 : sizeDN c ≤ k + 1 := by omega
      have h2 : sizeList cs' ≤ k := by omega
      simp only [copy_children, flattenSpecList]
      rw [ih.2 cs' h2, hA c h1, List.append_assoc]

theorem copy_recursive_eq_flattenSpec (n : DNode) : copy_recursive n = flattenSpec n :=
  (copy_joint (sizeDN n)).1 n (Nat.le_refl _)

/-- C1 as stated is false on the code: a still-pending node carries the
placeholder child (an item with empty text), and copy_recursive includes
that empty label, so the result has two elements, not one.  The pending
node below is produced by the program itself (loading a one-key object
whose value is an object). -/
theorem c1_pending_counterexample :
    (on_loadBtn_clicked (.obj [("a", .obj [("b", .int64 1)])]) ⟨[], [], 0⟩).topLevel =
      [.mk 0 "" none [.mk 1 "a: OBJECT" (some (48, 186, 143)) [.mk 2 "" none []]]] ∧
    regContains 1
      (on_loadBtn_clicked (.obj [("a", .obj [("b", .int64 1)])]) ⟨[], [], 0⟩).itemElementMap
      = true ∧
    copy_recursive (.mk 1 "a: OBJECT" (some (48, 186, 143)) [.mk 2 "" none []])
      = ["a: OBJECT", ""] ∧
    ["a: OBJECT", ""] ≠ ["a: OBJECT"] :=
  ⟨rfl, rfl, rfl, by decide⟩

/-- C1 (corrected): copy_recursive returns the depth-first pre-order label
sequence of the node and all its currently materialized descendants — the
placeholder child of a pending node included — so flattening a pending node
(single placeholder child: empty label, no children) yields the node label
followed by one empty string. -/
theorem c1_flatten_preorder :
    (∀ n : DNode, copy_recursive n = flattenSpec n) ∧
    (∀ (n c : DNode), n.children = [c] → c.label = "" → c.children = [] →
      copy_recursive n = [n.label, ""]) := by
  refine ⟨copy_recursive_eq_flattenSpec, ?_⟩
  intro n c hn hlab hch
  cases n with
  | mk i l co cs =>
    cases c with
    | mk ci cl cco ccs =>
      simp only [DNode.children] at hn hch
      simp only [DNode.label] at hlab
      subst hn hlab hch
      rfl

theorem c1_witness :
    copy_recursive (.mk 5 "a: OBJECT" none [.mk 6 "" none []]) = ["a: OBJECT", ""] :=
  c1_flatten_preorder.2 (.mk 5 "a: OBJECT" none [.mk 6 "" none []])
    (.mk 6 "" none []) rfl rfl rfl

/-- C2 as stated is false on the code for doubles: get_json_element_display
renders a double through std::to_string, which is fixed-point with six
fractional digits, so 1.5 displays as "1.500000", not "1.5".  (The rational
3/2 is the exact value of the IEEE double 1.5.) -/
theorem c2_double_counterexample :
    (⟨3, 2, by decide, by decide⟩ : ℚ) = 3 / 2 ∧
    (get_json_element_display (.double ⟨3, 2, by decide, by decide⟩)).value
      = "1.500000" ∧
    "1.500000" ≠ "1.5" := by
  refine ⟨?_, by decide, by decide⟩
  rw [show (⟨3, 2, by decide, by decide⟩ : ℚ) = Rat.divInt 3 2 from Rat.mk'_eq_divInt,
    Rat.divInt_eq_div]
  norm_num

/-- C2 (corrected): integer 7 formats as "7", boolean true as "true", null
as "null", every object (the empty one included) as "OBJECT", and int64 and
uint64 values format as their canonical base-10 rendering; but a double is
rendered by std::to_string in fixed-point notation with six fractional
digits, so 1.5 formats as "1.500000". -/
theorem c2_scalar_formatting :
    (∀ i : Int, (get_json_element_display (.int64 i)).value = toString i) ∧
    (∀ u : Nat, (get_json_element_display (.uint64 u)).value = toString u) ∧
    (get_json_element_display (.int64 7)).value = "7" ∧
    (get_json_element_display (.double ⟨3, 2, by decide, by decide⟩)).value
      = "1.500000" ∧
    (∀ b : Bool, (get_json_element_display (.bool b)).value
      = if b then "true" else "false") ∧
    (get_json_element_display (.bool true)).value = "true" ∧
    (get_json_element_display .null).value = "null" ∧
    (∀ fields, (get_json_element_display (.obj fields)).value = "OBJECT") ∧
    (get_json_element_display (.obj [])).value = "OBJECT" :=
  ⟨fun _ => rfl, fun _ => rfl, by decide, by decide, fun _ => rfl, by decide,
    by decide, fun _ => rfl, by decide⟩

/-- Modelled from the spec, for comparison with add_children_to_item: one
label per source member, in source order, each the key (member name for
objects, zero-based decimal index for arrays) followed by ": " and the
formatted scalar text. -/
def specChildLabels : JsonValue → List String
  | .obj fields => fields.map
      (fun kv => kv.1 ++ ": " ++ (get_json_element_display kv.2).value)
  | .arr elems => elems.enum.map
      (fun p => toString p.1 ++ ": " ++ (get_json_element_display p.2).value)
  | _ => []

theorem add_child_labels (key : String) (value : JsonValue) (item : DNode)
    (m : ItemElementMap) (nid : Nat) :
    ((add_child key value item m nid).1).children.map DNode.label =
      item.children.map DNode.label ++
        [key ++ ": " ++ (get_json_element_display value).value] := by
  cases hc : value.isContainer with
  | true => simp [add_child, hc, DNode.children, DNode.label]
  | false => simp [add_child, hc, DNode.children, DNode.label]

theorem addObjChildren_labels (fs : List (String × JsonValue)) (item : DNode)
    (m : ItemElementMap) (nid : Nat) :
    ((addObjChildren fs item m nid).1).children.map DNode.label =
      item.children.map DNode.label ++
        fs.map (fun kv => kv.1 ++ ": " ++ (get_json_element_display kv.2).value) := by
  induction fs generalizing item m nid with
  | nil => simp [addObjChildren]
  | cons kv fs ih =>
    simp only [addObjChildren, List.map_cons]
    rw [ih, add_child_labels, List.append_assoc]
    rfl

theorem addArrChildren_labels (vs : List JsonValue) (index : Nat) (item : DNode)
    (m : ItemElementMap) (nid : Nat) :
    ((addArrChildren vs index item m nid).1).children.map DNode.label =
      item.children.map DNode.label ++
        (List.enumFrom index vs).map
          (fun p => toString p.1 ++ ": " ++ (get_json_element_display p.2).value) := by
  induction vs generalizing index item m nid with
  | nil => simp [addArrChildren]
  | cons v vs ih =>
    simp only [addArrChildren, List.enumFrom, List.map_cons]
    rw [ih, add_child_labels, List.append_assoc]
    rfl

theorem ACI_labels (item : DNode) (element : JsonValue) (m : ItemElementMap)
    (nid : Nat) :
    ((add_children_to_item item element m nid).1).children.map DNode.label =
      item.children.map DNode.label ++ specChildLabels element := by
  cases element with
  | obj fields =>
    simpa [add_children_to_item, specChildLabels] using
      addObjChildren_labels fields item m nid
  | arr elems =>
    have h := addArrChildren_labels elems 0 item m nid
    simp only [add_children_to_item, specChildLabels]
    rw [h, List.enum]
  | int64 i => simp [add_children_to_item, specChildLabels]
  | uint64 u => simp [add_children_to_item, specChildLabels]
  | double d => simp [add_children_to_item, specChildLabels]
  | str s => simp [add_children_to_item, specChildLabels]
  | bool b => simp [add_children_to_item, specChildLabels]
  | null => simp [add_children_to_item, specChildLabels]
  | unknown => simp [add_children_to_item, specChildLabels]

/-- C8: add_children_to_item materializes exactly one child per source
member, appended in source order (object insertion order, array index
order), labeled key + ": " + formatted text, with the key the literal
member name for objects and the zero-based decimal index for arrays; in
particular the object a:1, b:2 yields labels ["a: 1", "b: 2"] and the
array [10, 20] yields ["0: 10", "1: 20"]. -/
theorem c8_materializer_labels :
    (∀ (item : DNode) (element : JsonValue) (m : ItemElementMap) (nid : Nat),
      ((add_children_to_item item element m nid).1).children.map DNode.label =
        item.children.map DNode.label ++ specChildLabels element) ∧
    (∀ fields, (specChildLabels (.obj fields)).length = fields.length) ∧
    (∀ elems, (specChildLabels (.arr elems)).length = elems.length) ∧
    ((add_children_to_item (.mk 0 "" none [])
        (.obj [("a", .int64 1), ("b", .int64 2)]) [] 1).1).children.map DNode.label
      = ["a: 1", "b: 2"] ∧
    ((add_children_to_item (.mk 0 "" none [])
        (.arr [.int64 10, .int64 20]) [] 1).1).children.map DNode.label
      = ["0: 10", "1: 20"] := by
  exact ⟨ACI_labels, by simp [specChildLabels], by simp [specChildLabels],
    by decide, by decide⟩

/-- C9: clicking search-next with an empty query, or with a query that
differs from the one recorded by the last successful search, is a silent
no-op: the entire state (tree, registry, selection, last match, recorded
query) is returned unchanged and no traversal runs. -/
theorem c9_stale_find_next_noop (app : AppState)
    (h : app.editText = "" ∨ app.editText ≠ app.lastSearchText) :
    on_searchNextBtn_clicked app = (app, .notRun) := by
  simp only [on_searchNextBtn_clicked]
  rw [if_pos h]

theorem c9_witness :
    on_searchNextBtn_clicked
      ⟨⟨[], [], 0⟩, "new query", "old query", none, [], none, false, none⟩ =
    (⟨⟨[], [], 0⟩, "new query", "old query", none, [], none, false, none⟩,
      .notRun) :=
  c9_stale_find_next_noop _ (by right; decide)

theorem searchAux_const (q : String) (cs : Bool) (queue : List DNode)
    (started : Bool) (app : AppState) :
    (searchAux q cs queue started app).2.tree.topLevel = app.tree.topLevel ∧
    (searchAux q cs queue started app).2.editText = app.editText ∧
    (searchAux q cs queue started app).2.lastSearchText = app.lastSearchText ∧
    (searchAux q cs queue started app).2.caseSensitive = app.caseSensitive ∧
    (searchAux q cs queue started app).2.currentItem = app.currentItem := by
  induction queue, started, app using searchAux.induct q cs with
  | case1 app => simp [searchAux]
  | case2 current rest started app h =>
    rw [Bool.and_eq_true] at h
    simp [searchAux, h.1, h.2]
  | case3 current rest started app h started' r ih =>
    have hcond : (started && qContains current.label q cs) = false := by
      simpa using h
    simp only [searchAux, hcond, Bool.false_eq_true, if_false]
    exact ih

theorem searchTree_const (item : DNode) (q : String) (sfc sa : Bool)
    (app : AppState) :
    (searchTree item q sfc sa app).2.tree.topLevel = app.tree.topLevel ∧
    (searchTree item q sfc sa app).2.editText = app.editText ∧
    (searchTree item q sfc sa app).2.lastSearchText = app.lastSearchText ∧
    (searchTree item q sfc sa app).2.caseSensitive = app.caseSensitive ∧
    (searchTree item q sfc sa app).2.currentItem = app.currentItem :=
  searchAux_const q app.caseSensitive [item] (!sfc) app

theorem textChangedLoop_const (q : String) (roots : List DNode) (app : AppState) :
    (textChangedLoop q roots app).2.tree.topLevel = app.tree.topLevel ∧
    (textChangedLoop q roots app).2.editText = app.editText ∧
    (textChangedLoop q roots app).2.lastSearchText = app.lastSearchText ∧
    (textChangedLoop q roots app).2.caseSensitive = app.caseSensitive ∧
    (textChangedLoop q roots app).2.currentItem = app.currentItem := by
  induction roots generalizing app with
  | nil => simp [textChangedLoop]
  | cons root roots ih =>
    simp only [textChangedLoop]
    cases hf : (searchTree root q false true app).1 with
    | true =>
      simp only [if_pos]
      exact searchTree_const root q false true app
    | false =>
      simp only [hf, Bool.false_eq_true, if_false]
      have h1 := searchTree_const root q false true app
      have h2 := ih (searchTree root q false true app).2
      obtain ⟨a1, a2, a3, a4, a5⟩ := h1
      obtain ⟨b1, b2, b3, b4, b5⟩ := h2
      exact ⟨b1.trans a1, b2.trans a2, b3.trans a3, b4.trans a4, b5.trans a5⟩

/-- C10: lastSearchText is recorded by on_textEdit_textChanged only when
the typed search actually finds a match (it then equals the query); on a
miss it is left untouched, so a later find-next click with a query that was
never successfully searched fails the guard and is a silent no-op. -/
theorem c10_last_query_only_on_match (app : AppState) :
    ((on_textEdit_textChanged app).2 ≠ .foundMatch →
      (on_textEdit_textChanged app).1.lastSearchText = app.lastSearchText) ∧
    ((on_textEdit_textChanged app).2 = .foundMatch →
      (on_textEdit_textChanged app).1.lastSearchText = app.editText) ∧
    ((on_textEdit_textChanged app).2 ≠ .foundMatch →
      app.editText ≠ app.lastSearchText →
      on_searchNextBtn_clicked (on_textEdit_textChanged app).1 =
        ((on_textEdit_textChanged app).1, .notRun)) := by
  by_cases he : app.editText = ""
  · have hr : on_textEdit_textChanged app = (app, .noText) := by
      simp [on_textEdit_textChanged, he]
    rw [hr]
    refine ⟨fun _ => rfl, ⟨fun hf => by simp at hf, fun _ _ => ?_⟩⟩
    simp only [on_searchNextBtn_clicked]
    rw [if_pos (Or.inl he)]
  · cases hci : app.currentItem with
    | none =>
      cases hok : (textChangedLoop app.editText app.tree.topLevel app).1 with
      | true =>
        have hr : on_textEdit_textChanged app =
            ({ (textChangedLoop app.editText app.tree.topLevel app).2 with
                lastSearchText := app.editText }, .foundMatch) := by
          simp [on_textEdit_textChanged, he, hci, hok]
        rw [hr]
        exact ⟨fun hne => absurd rfl hne, ⟨fun _ => rfl, fun hne _ => absurd rfl hne⟩⟩
      | false =>
        have hr : on_textEdit_textChanged app =
            ((textChangedLoop app.editText app.tree.topLevel app).2, .notFound) := by
          simp [on_textEdit_textChanged, he, hci, hok]
        rw [hr]
        have hc := textChangedLoop_const app.editText app.tree.topLevel app
        refine ⟨fun _ => hc.2.2.1, ⟨fun hf => by simp at hf, fun _ hne => ?_⟩⟩
        have hguard :
            (textChangedLoop app.editText app.tree.topLevel app).2.editText = "" ∨
            (textChangedLoop app.editText app.tree.topLevel app).2.editText ≠
              (textChangedLoop app.editText app.tree.topLevel app).2.lastSearchText :=
          Or.inr (by rw [hc.2.1, hc.2.2.1]; exact hne)
        simp only [on_searchNextBtn_clicked]
        rw [if_pos hguard]
    | some cid =>
      cases hfn : findNode cid app.tree.topLevel with
      | none =>
        have hr : on_textEdit_textChanged app = (app, .notFound) := by
          simp [on_textEdit_textChanged, he, hci, hfn]
        rw [hr]
        refine ⟨fun _ => rfl, ⟨fun hf => by simp at hf, fun _ hne => ?_⟩⟩
        simp only [on_searchNextBtn_clicked]
        rw [if_pos (Or.inr hne)]
      | some startItem =>
        cases hok : (searchTree startItem app.editText false true app).1 with
        | true =>
          have hr : on_textEdit_textChanged app =
              ({ (searchTree startItem app.editText false true app).2 with
                  lastSearchText := app.editText }, .foundMatch) := by
            simp [on_textEdit_textChanged, he, hci, hfn, hok]
          rw [hr]
          exact ⟨fun hne => absurd rfl hne, ⟨fun _ => rfl, fun hne _ => absurd rfl hne⟩⟩
        | false =>
          have hr : on_textEdit_textChanged app =
              ((searchTree startItem app.editText false true app).2, .notFound) := by
            simp [on_textEdit_textChanged, he, hci, hfn, hok]
          rw [hr]
          have hc := searchTree_const startItem app.editText false true app
          refine ⟨fun _ => hc.2.2.1, ⟨fun hf => by simp at hf, fun _ hne => ?_⟩⟩
          have hguard :
              (searchTree startItem app.editText false true app).2.editText = "" ∨
              (searchTree startItem app.editText false true app).2.editText ≠
                (searchTree startItem app.editText false true app).2.lastSearchText :=
            Or.inr (by rw [hc.2.1, hc.2.2.1]; exact hne)
          simp only [on_searchNextBtn_clicked]
          rw [if_pos hguard]

theorem c10_witness :
    (on_textEdit_textChanged
        ⟨⟨[.mk 0 "root" none []], [], 1⟩, "zzz", "", none, [], none, true, none⟩).2
        ≠ .foundMatch ∧
    (on_textEdit_textChanged
        ⟨⟨[.mk 0 "root" none []], [], 1⟩, "zzz", "", none, [], none, true, none⟩).1.lastSearchText
      = "" := by
  have h1 : on_textEdit_textChanged
      ⟨⟨[.mk 0 "root" none []], [], 1⟩, "zzz", "", none, [], none, true, none⟩
      = (⟨⟨[.mk 0 "root" none []], [], 1⟩, "zzz", "", none, [], none, true, none⟩,
          .notFound) := by
    simp [on_textEdit_textChanged, textChangedLoop, searchTree, searchAux,
      qContains, hasSub, leadsWith, expandItem, regLookup, DNode.label,
      DNode.children, DNode.id]
  refine ⟨by rw [h1]; decide, ?_⟩
  have h2 := (c10_last_query_only_on_match
    ⟨⟨[.mk 0 "root" none []], [], 1⟩, "zzz", "", none, [], none, true, none⟩).1
  exact h2 (by rw [h1]; decide)

theorem dnode_mutual_ind (P : DNode → Prop) (Q : List DNode → Prop)
    (hnode : ∀ i l c cs, Q cs → P (.mk i l c cs))
    (hnil : Q [])
    (hcons : ∀ n ns, P n → Q ns → Q (n :: ns)) :
    (∀ n, P n) ∧ (∀ ns, Q ns) := by
  have key : ∀ k, (∀ n, sizeDN n ≤ k → P n) ∧ (∀ ns, sizeList ns ≤ k → Q ns) := by
    intro k
    induction k with
    | zero =>
      constructor
      · intro n h
        have := sizeDN_pos n
        omega
      · intro ns h
        cases ns with
        | nil => exact hnil
        | cons n ns' =>
          have := sizeDN_pos n
          simp only [sizeList] at h
          omega
    | succ k ih =>
      have hP : ∀ n, sizeDN n ≤ k + 1 → P n := by
        intro n h
        cases n with
        | mk i l c cs =>
          apply hnode
          apply ih.2
          simp only [sizeDN] at h
          omega
      refine ⟨hP, ?_⟩
      intro ns h
      cases ns with
      | nil => exact hnil
      | cons n ns' =>
        have h1 := sizeDN_pos n
        simp only [sizeList] at h
        exact hcons n ns' (hP n (by omega)) (ih.2 ns' (by omega))
  exact ⟨fun n => (key (sizeDN n)).1 n (Nat.le_refl _),
    fun ns => (key (sizeList ns)).2 ns (Nat.le_refl _)⟩

mutual

/-- An item with the given identity occurs in the subtree. -/
def hasIdNode (t : Nat) : DNode → Bool
  | .mk i _ _ cs => i == t || hasIdList t cs

def hasIdList (t : Nat) : List DNode → Bool
  | [] => false
  | n :: ns => hasIdNode t n || hasIdList t ns

end

theorem regLookup_erase_self (k : Nat) (m : ItemElementMap) :
    regLookup k (regErase k m) = none := by
  induction m with
  | nil => simp [regLookup, regErase]
  | cons e es ih =>
    simp only [regErase, List.filter_cons] at *
    cases h : (e.1 != k) with
    | true =>
      simp only [if_pos, regLookup, List.find?_cons]
      have : (e.1 == k) = false := by
        cases hc : (e.1 == k) with
        | true => simp [bne, hc] at h
        | false => rfl
      rw [this]
      simpa [regLookup] using ih
    | false => simpa [h, regLookup] using ih

theorem expandNoop_of_lookup_none (t : Nat) :
    (∀ n : DNode, ∀ m nid, regLookup t m = none →
      expandNode t n m nid = (n, m, nid)) ∧
    (∀ ns : List DNode, ∀ m nid, regLookup t m = none →
      expandList t ns m nid = (ns, m, nid)) := by
  apply dnode_mutual_ind
  · intro i l c cs ih m nid hm
    by_cases hit : i = t
    · subst hit
      simp [expandNode, expandItem, DNode.id, hm]
    · simp only [expandNode, DNode.id]
      rw [if_neg hit, ih m nid hm]
  · intro m nid hm
    simp [expandList]
  · intro n ns ihn ihns m nid hm
    simp only [expandList]
    rw [ihn m nid hm]
    rw [ihns m nid hm]

theorem expandNoop_of_no_id (t : Nat) :
    (∀ n : DNode, ∀ m nid, hasIdNode t n = false →
      expandNode t n m nid = (n, m, nid)) ∧
    (∀ ns : List DNode, ∀ m nid, hasIdList t ns = false →
      expandList t ns m nid = (ns, m, nid)) := by
  apply dnode_mutual_ind
  · intro i l c cs ih m nid hm
    simp only [hasIdNode, Bool.or_eq_false_iff] at hm
    have hit : i ≠ t := by
      intro he
      rw [he] at hm
      simp at hm
    simp only [expandNode, DNode.id]
    rw [if_neg hit, ih m nid hm.2]
  · intro m nid hm
    simp [expandList]
  · intro n ns ihn ihns m nid hm
    simp only [hasIdList, Bool.or_eq_false_iff] at hm
    simp only [expandList]
    rw [ihn m nid hm.1, ihns m nid hm.2]

theorem lookup_none_after_expand (t : Nat) :
    (∀ n : DNode, ∀ m nid, hasIdNode t n = true →
      regLookup t (expandNode t n m nid).2.1 = none) ∧
    (∀ ns : List DNode, ∀ m nid, hasIdList t ns = true →
      regLookup t (expandList t ns m nid).2.1 = none) := by
  apply dnode_mutual_ind
  · intro i l c cs ih m nid hm
    by_cases hit : i = t
    · subst hit
      simp only [expandNode, DNode.id, if_pos]
      cases hl : regLookup i m with
      | none => simpa [expandItem, DNode.id, hl] using hl
      | some v =>
        simp only [expandItem, DNode.id, hl]
        exact regLookup_erase_self i _
    · simp only [hasIdNode, Bool.or_eq_true] at hm
      rcases hm with hm | hm
      · exact absurd (by simpa using hm : i = t) hit
      · simp only [expandNode, DNode.id]
        rw [if_neg hit]
        exact ih m nid hm
  · intro m nid hm
    simp [hasIdList] at hm
  · intro n ns ihn ihns m nid hm
    simp only [hasIdList, Bool.or_eq_true] at hm
    by_cases hn : hasIdNode t n = true
    · have h1 := ihn m nid hn
      simp only [expandList]
      rw [(expandNoop_of_lookup_none t).2 ns _ _ h1]
      exact h1
    · have hn' : hasIdNode t n = false := by
        cases h : hasIdNode t n with
        | true => exact absurd h hn
        | false => rfl
      rcases hm with hm | hm
      · exact absurd hm hn
      · simp only [expandList]
        rw [(expandNoop_of_no_id t).1 n m nid hn']
        exact ihns m nid hm

/-- C6: a second invocation of the itemExpanded slot for the same item is a
no-op: once the first call has run, the item's registry entry is gone (the
slot erases it in the same step that materializes the real children), so
the registry guard fails and the tree, registry and identity counter are
all left exactly as the first call left them. -/
theorem c6_expand_idempotent (t : Nat) (st : TreeState) :
    on_treeWidget_itemExpanded t (on_treeWidget_itemExpanded t st) =
      on_treeWidget_itemExpanded t st := by
  cases hh : hasIdList t st.topLevel with
  | false =>
    have h1 : on_treeWidget_itemExpanded t st = st := by
      simp only [on_treeWidget_itemExpanded]
      rw [(expandNoop_of_no_id t).2 st.topLevel st.itemElementMap st.nextId hh]
    rw [h1, h1]
  | true =>
    have h1 := (lookup_none_after_expand t).2 st.topLevel st.itemElementMap st.nextId hh
    have hstep : on_treeWidget_itemExpanded t st =
        ⟨(expandList t st.topLevel st.itemElementMap st.nextId).1,
         (expandList t st.topLevel st.itemElementMap st.nextId).2.1,
         (expandList t st.topLevel st.itemElementMap st.nextId).2.2⟩ := rfl
    rw [hstep]
    simp only [on_treeWidget_itemExpanded]
    rw [(expandNoop_of_lookup_none t).2 _ _ _ h1]

theorem add_child_id_label (key : String) (value : JsonValue) (item : DNode)
    (m : ItemElementMap) (nid : Nat) :
    (add_child key value item m nid).1.id = item.id ∧
    (add_child key value item m nid).1.label = item.label := by
  cases hc : value.isContainer with
  | true => simp [add_child, hc, DNode.id, DNode.label]
  | false => simp [add_child, hc, DNode.id, DNode.label]

theorem addObjChildren_id_label (fs : List (String × JsonValue)) (item : DNode)
    (m : ItemElementMap) (nid : Nat) :
    (addObjChildren fs item m nid).1.id = item.id ∧
    (addObjChildren fs item m nid).1.label = item.label := by
  induction fs generalizing item m nid with
  | nil => simp [addObjChildren]
  | cons kv fs ih =>
    simp only [addObjChildren]
    have h1 := add_child_id_label kv.1 kv.2 item m nid
    have h2 := ih (add_child kv.1 kv.2 item m nid).1
      (add_child kv.1 kv.2 item m nid).2.1 (add_child kv.1 kv.2 item m nid).2.2
    exact ⟨h2.1.trans h1.1, h2.2.trans h1.2⟩

theorem addArrChildren_id_label (vs : List JsonValue) (index : Nat) (item : DNode)
    (m : ItemElementMap) (nid : Nat) :
    (addArrChildren vs index item m nid).1.id = item.id ∧
    (addArrChildren vs index item m nid).1.label = item.label := by
  induction vs generalizing index item m nid with
  | nil => simp [addArrChildren]
  | cons v vs ih =>
    simp only [addArrChildren]
    have h1 := add_child_id_label (toString index) v item m nid
    have h2 := ih (index + 1) (add_child (toString index) v item m nid).1
      (add_child (toString index) v item m nid).2.1
      (add_child (toString index) v item m nid).2.2
    exact ⟨h2.1.trans h1.1, h2.2.trans h1.2⟩

theorem add_children_to_item_id_label (item : DNode) (element : JsonValue)
    (m : ItemElementMap) (nid : Nat) :
    (add_children_to_item item element m nid).1.id = item.id ∧
    (add_children_to_item item element m nid).1.label = item.label := by
  cases element with
  | obj fields => exact addObjChildren_id_label fields item m nid
  | arr elems => exact addArrChildren_id_label elems 0 item m nid
  | int64 i => simp [add_children_to_item]
  | uint64 u => simp [add_children_to_item]
  | double d => simp [add_children_to_item]
  | str s => simp [add_children_to_item]
  | bool b => simp [add_children_to_item]
  | null => simp [add_children_to_item]
  | unknown => simp [add_children_to_item]

theorem removePlaceholder_id_label (item : DNode) :
    (removePlaceholder item).id = item.id ∧
    (removePlaceholder item).label = item.label := by
  rcases hch : item.children with _ | ⟨c, _ | ⟨c2, cs⟩⟩ <;>
      simp only [removePlaceholder, hch]
  · exact ⟨trivial, trivial⟩
  · cases hlab : (c.label == "") with
    | true => simp [DNode.id, DNode.label]
    | false => simp [hlab]
  · exact ⟨trivial, trivial⟩

theorem expandItem_id_label (item : DNode) (m : ItemElementMap) (nid : Nat) :
    (expandItem item m nid).1.id = item.id ∧
    (expandItem item m nid).1.label = item.label := by
  cases hl : regLookup item.id m with
  | none => simp [expandItem, hl]
  | some v =>
    simp only [expandItem, hl]
    have h1 := add_children_to_item_id_label (removePlaceholder item) v m nid
    have h2 := removePlaceholder_id_label item
    exact ⟨h1.1.trans h2.1, h1.2.trans h2.2⟩

theorem bfsFull_nil (m : ItemElementMap) (nid : Nat) :
    bfsFull [] m nid = ([], m, nid) := by
  simp [bfsFull]

theorem bfsFull_cons (current : DNode) (rest : List DNode)
    (m : ItemElementMap) (nid : Nat) :
    bfsFull (current :: rest) m nid =
      ((expandItem current m nid).1 ::
          (bfsFull (rest ++ (expandItem current m nid).1.children)
            (expandItem current m nid).2.1 (expandItem current m nid).2.2).1,
        (bfsFull (rest ++ (expandItem current m nid).1.children)
            (expandItem current m nid).2.1 (expandItem current m nid).2.2).2.1,
        (bfsFull (rest ++ (expandItem current m nid).1.children)
            (expandItem current m nid).2.1 (expandItem current m nid).2.2).2.2) := by
  rw [bfsFull]

/-- The match predicate of searchTree applied to an item. -/
def matchesQ (q : String) (cs : Bool) (n : DNode) : Bool :=
  qContains n.label q cs

/-- First match in BFS visit order. -/
def foundNode (q : String) (cs : Bool) (queue : List DNode)
    (m : ItemElementMap) (nid : Nat) : Option DNode :=
  (bfsVisits queue m nid).find? (matchesQ q cs)

theorem foundNode_nil (q : String) (cs : Bool) (m : ItemElementMap) (nid : Nat) :
    foundNode q cs [] m nid = none := by
  simp [foundNode, bfsVisits, bfsFull_nil]

theorem foundNode_cons (q : String) (cs : Bool) (current : DNode)
    (rest : List DNode) (m : ItemElementMap) (nid : Nat) :
    foundNode q cs (current :: rest) m nid =
      if qContains current.label q cs
      then some (expandItem current m nid).1
      else foundNode q cs (rest ++ (expandItem current m nid).1.children)
        (expandItem current m nid).2.1 (expandItem current m nid).2.2 := by
  have hl := (expandItem_id_label current m nid).2
  simp only [foundNode, bfsVisits, bfsFull_cons, List.find?_cons, matchesQ, hl]
  cases hq : qContains current.label q cs with
  | true => simp
  | false => simp

theorem searchAux_true_spec (q : String) (cs : Bool) (queue : List DNode)
    (started : Bool) (app : AppState) (hst : started = true) :
    ((searchAux q cs queue started app).1 =
      (foundNode q cs queue app.tree.itemElementMap app.tree.nextId).isSome) ∧
    ((searchAux q cs queue started app).2.lastMatch =
      match foundNode q cs queue app.tree.itemElementMap app.tree.nextId with
      | some x => some x.id
      | none => app.lastMatch) ∧
    ((searchAux q cs queue started app).2.selected =
      match foundNode q cs queue app.tree.itemElementMap app.tree.nextId with
      | some x => [x.id]
      | none => app.selected) ∧
    ((searchAux q cs queue started app).2.scrolledTo =
      match foundNode q cs queue app.tree.itemElementMap app.tree.nextId with
      | some x => some x.id
      | none => app.scrolledTo) ∧
    (foundNode q cs queue app.tree.itemElementMap app.tree.nextId = none →
      (searchAux q cs queue started app).2 =
        { app with tree := ⟨app.tree.topLevel,
            (bfsFull queue app.tree.itemElementMap app.tree.nextId).2.1,
            (bfsFull queue app.tree.itemElementMap app.tree.nextId).2.2⟩ }) := by
  induction queue, started, app using searchAux.induct q cs with
  | case1 app =>
    rw [foundNode_nil]
    refine ⟨by simp [searchAux], by simp [searchAux], by simp [searchAux],
      by simp [searchAux], fun _ => ?_⟩
    rw [bfsFull_nil]
    simp [searchAux]
  | case2 current rest started app h =>
    rw [Bool.and_eq_true] at h
    have hid := (expandItem_id_label current app.tree.itemElementMap app.tree.nextId).1
    have hf := foundNode_cons q cs current rest app.tree.itemElementMap app.tree.nextId
    rw [if_pos h.2] at hf
    rw [hf]
    have hs : searchAux q cs (current :: rest) started app =
        (true, { app with
          selected := [current.id],
          scrolledTo := some current.id,
          lastMatch := some current.id }) := by
      simp only [searchAux, h.1, h.2]
      simp
    rw [hs]
    refine ⟨rfl, ?_, ?_, ?_, ?_⟩
    · simp [hid]
    · simp [hid]
    · simp [hid]
    · intro hc
      simp at hc
  | case3 current rest started app h started' r ih =>
    rw [hst] at h
    have hqf : qContains current.label q cs = false := by
      cases hq : qContains current.label q cs with
      | true => exact absurd (by simp [hq]) h
      | false => rfl
    have hst' : started' = true := by
      simp only [started', hst, Bool.true_or]
    have ihh := ih hst'
    have hf := foundNode_cons q cs current rest app.tree.itemElementMap app.tree.nextId
    rw [if_neg (by simp [hqf])] at hf
    have hs : searchAux q cs (current :: rest) started app =
        searchAux q cs
          (rest ++ (expandItem current app.tree.itemElementMap app.tree.nextId).1.children)
          started'
          { app with tree := ⟨app.tree.topLevel,
              (expandItem current app.tree.itemElementMap app.tree.nextId).2.1,
              (expandItem current app.tree.itemElementMap app.tree.nextId).2.2⟩ } := by
      simp only [searchAux, hst, hqf, Bool.and_false, Bool.false_eq_true, if_false]
      simp only [Bool.true_or, hst']
    rw [hs, hf]
    have hbfs := bfsFull_cons current rest app.tree.itemElementMap app.tree.nextId
    refine ⟨ihh.1, ihh.2.1, ihh.2.2.1, ihh.2.2.2.1, fun hc => ?_⟩
    have h5 := ihh.2.2.2.2 hc
    rw [h5, hbfs]

theorem searchAux_resume_miss (q : String) (cs : Bool) (queue : List DNode)
    (started : Bool) (app : AppState) :
    started = false →
    (∀ x ∈ bfsVisits queue app.tree.itemElementMap app.tree.nextId,
      app.lastMatch ≠ some x.id) →
    searchAux q cs queue started app =
      (false, { app with tree := ⟨app.tree.topLevel,
          (bfsFull queue app.tree.itemElementMap app.tree.nextId).2.1,
          (bfsFull queue app.tree.itemElementMap app.tree.nextId).2.2⟩ }) := by
  induction queue, started, app using searchAux.induct q cs with
  | case1 app =>
    intro hst hall
    rw [bfsFull_nil]
    simp [searchAux]
  | case2 current rest started app h =>
    intro hst hall
    rw [Bool.and_eq_true, hst] at h
    exact absurd h.1 (by decide)
  | case3 current rest started app h started' r ih =>
    intro hst hall
    have hvis : bfsVisits (current :: rest) app.tree.itemElementMap app.tree.nextId =
        (expandItem current app.tree.itemElementMap app.tree.nextId).1 ::
          bfsVisits
            (rest ++ (expandItem current app.tree.itemElementMap app.tree.nextId).1.children)
            (expandItem current app.tree.itemElementMap app.tree.nextId).2.1
            (expandItem current app.tree.itemElementMap app.tree.nextId).2.2 := by
      simp [bfsVisits, bfsFull_cons]
    have hhead := hall (expandItem current app.tree.itemElementMap app.tree.nextId).1
      (by rw [hvis]; exact List.mem_cons_self _ _)
    have hid := (expandItem_id_label current app.tree.itemElementMap app.tree.nextId).1
    rw [hid] at hhead
    have hbeq : (app.lastMatch == some current.id) = false := by
      cases hB : (app.lastMatch == some current.id) with
      | true => exact absurd (eq_of_beq hB) hhead
      | false => rfl
    have hst' : started' = false := by
      simp only [started', hst, hbeq, Bool.or_self]
    have ihh := ih hst' (by
      intro x hx
      refine hall x ?_
      rw [hvis]
      exact List.mem_cons_of_mem _ hx)
    have hs : searchAux q cs (current :: rest) started app =
        searchAux q cs
          (rest ++ (expandItem current app.tree.itemElementMap app.tree.nextId).1.children)
          started'
          { app with tree := ⟨app.tree.topLevel,
              (expandItem current app.tree.itemElementMap app.tree.nextId).2.1,
              (expandItem current app.tree.itemElementMap app.tree.nextId).2.2⟩ } := by
      simp only [searchAux, hst, Bool.false_and, Bool.false_eq_true, if_false]
      simp only [hbeq, Bool.false_or, hst']
    rw [hs, ihh, bfsFull_cons]

theorem searchAux_resume_spec (q : String) (cs : Bool) (queue : List DNode)
    (started : Bool) (app : AppState) :
    started = false →
    ∀ (lm : Nat) (pre : List DNode) (b : DNode) (post : List DNode),
      app.lastMatch = some lm →
      bfsVisits queue app.tree.itemElementMap app.tree.nextId = pre ++ b :: post →
      b.id = lm →
      (∀ x ∈ pre, x.id ≠ lm) →
      ((searchAux q cs queue started app).1 =
        (post.find? (matchesQ q cs)).isSome) ∧
      ((searchAux q cs queue started app).2.lastMatch =
        match post.find? (matchesQ q cs) with
        | some x => some x.id
        | none => app.lastMatch) ∧
      (post.find? (matchesQ q cs) = none →
        (searchAux q cs queue started app).2 =
          { app with tree := ⟨app.tree.topLevel,
              (bfsFull queue app.tree.itemElementMap app.tree.nextId).2.1,
              (bfsFull queue app.tree.itemElementMap app.tree.nextId).2.2⟩ }) := by
  induction queue, started, app using searchAux.induct q cs with
  | case1 app =>
    intro hst lm pre b post hlm hvis hb hpre
    simp [bfsVisits, bfsFull_nil] at hvis
  | case2 current rest started app h =>
    intro hst lm pre b post hlm hvis hb hpre
    rw [Bool.and_eq_true, hst] at h
    exact absurd h.1 (by decide)
  | case3 current rest started app h started' r ih =>
    intro hst lm pre b post hlm hvis hb hpre
    have hcons : bfsVisits (current :: rest) app.tree.itemElementMap app.tree.nextId =
        (expandItem current app.tree.itemElementMap app.tree.nextId).1 ::
          bfsVisits
            (rest ++ (expandItem current app.tree.itemElementMap app.tree.nextId).1.children)
            (expandItem current app.tree.itemElementMap app.tree.nextId).2.1
            (expandItem current app.tree.itemElementMap app.tree.nextId).2.2 := by
      simp [bfsVisits, bfsFull_cons]
    have hid := (expandItem_id_label current app.tree.itemElementMap app.tree.nextId).1
    rw [hcons] at hvis
    cases pre with
    | nil =>
      simp only [List.nil_append, List.cons.injEq] at hvis
      have hbid : current.id = lm := by
        rw [← hb, ← hvis.1, hid]
      have hbeq : (app.lastMatch == some current.id) = true := by
        rw [hlm, hbid]
        simp
      have hst' : started' = true := by
        simp only [started', hst, hbeq, Bool.false_or]
      have hspec := searchAux_true_spec q cs
        (rest ++ (expandItem current app.tree.itemElementMap app.tree.nextId).1.children)
        started'
        { app with tree := ⟨app.tree.topLevel,
            (expandItem current app.tree.itemElementMap app.tree.nextId).2.1,
            (expandItem current app.tree.itemElementMap app.tree.nextId).2.2⟩ }
        hst'
      have hs : searchAux q cs (current :: rest) started app =
          searchAux q cs
            (rest ++ (expandItem current app.tree.itemElementMap app.tree.nextId).1.children)
            started'
            { app with tree := ⟨app.tree.topLevel,
                (expandItem current app.tree.itemElementMap app.tree.nextId).2.1,
                (expandItem current app.tree.itemElementMap app.tree.nextId).2.2⟩ } := by
        simp only [searchAux, hst, Bool.false_and, Bool.false_eq_true, if_false]
        simp only [hbeq, Bool.false_or, hst']
      rw [hs]
      have hpost : foundNode q cs
          (rest ++ (expandItem current app.tree.itemElementMap app.tree.nextId).1.children)
          (expandItem current app.tree.itemElementMap app.tree.nextId).2.1
          (expandItem current app.tree.itemElementMap app.tree.nextId).2.2 =
          post.find? (matchesQ q cs) := by
        simp only [foundNode]
        rw [hvis.2]
      rw [hpost] at hspec
      refine ⟨hspec.1, hspec.2.1, fun hc => ?_⟩
      have h5 := hspec.2.2.2.2 hc
      rw [h5, bfsFull_cons]
    | cons p pre' =>
      simp only [List.cons_append, List.cons.injEq] at hvis
      have hpid : current.id ≠ lm := by
        have := hpre p (List.mem_cons_self _ _)
        rw [← hvis.1, hid] at this
        exact this
      have hbeq : (app.lastMatch == some current.id) = false := by
        cases hB : (app.lastMatch == some current.id) with
        | true =>
          have := eq_of_beq hB
          rw [hlm] at this
          exact absurd (Option.some.inj this).symm hpid
        | false => rfl
      have hst' : started' = false := by
        simp only [started', hst, hbeq, Bool.or_self]
      have ihh := ih hst' lm pre' b post (by simpa using hlm) hvis.2 hb
        (fun x hx => hpre x (List.mem_cons_of_mem _ hx))
      have hs : searchAux q cs (current :: rest) started app =
          searchAux q cs
            (rest ++ (expandItem current app.tree.itemElementMap app.tree.nextId).1.children)
            started'
            { app with tree := ⟨app.tree.topLevel,
                (expandItem current app.tree.itemElementMap app.tree.nextId).2.1,
                (expandItem current app.tree.itemElementMap app.tree.nextId).2.2⟩ } := by
        simp only [searchAux, hst, Bool.false_and, Bool.false_eq_true, if_false]
        simp only [hbeq, Bool.false_or, hst']
      rw [hs]
      refine ⟨ihh.1, ihh.2.1, fun hc => ?_⟩
      have h5 := ihh.2.2 hc
      rw [h5, bfsFull_cons]

theorem expandAll_cons (c : DNode) (cs : List DNode) (m : ItemElementMap) (nid : Nat) :
    expandAll (c :: cs) m nid =
      ((expandItem c m nid).1 ::
          (expandAll cs (expandItem c m nid).2.1 (expandItem c m nid).2.2).1,
        (expandAll cs (expandItem c m nid).2.1 (expandItem c m nid).2.2).2.1,
        (expandAll cs (expandItem c m nid).2.1 (expandItem c m nid).2.2).2.2) := by
  simp [expandAll]

theorem bfsVisits_cons (current : DNode) (rest : List DNode)
    (m : ItemElementMap) (nid : Nat) :
    bfsVisits (current :: rest) m nid =
      (expandItem current m nid).1 ::
        bfsVisits (rest ++ (expandItem current m nid).1.children)
          (expandItem current m nid).2.1 (expandItem current m nid).2.2 := by
  simp [bfsVisits, bfsFull_cons]

theorem bfs_rotate (q1 : List DNode) :
    ∀ (q2 : List DNode) (m : ItemElementMap) (nid : Nat),
    bfsVisits (q1 ++ q2) m nid =
      (expandAll q1 m nid).1 ++
        bfsVisits (q2 ++ childrenOf (expandAll q1 m nid).1)
          (expandAll q1 m nid).2.1 (expandAll q1 m nid).2.2 := by
  induction q1 with
  | nil =>
    intro q2 m nid
    simp [expandAll, childrenOf]
  | cons c q1' ih =>
    intro q2 m nid
    rw [List.cons_append, bfsVisits_cons, List.append_assoc,
      ih (q2 ++ (expandItem c m nid).1.children)
        (expandItem c m nid).2.1 (expandItem c m nid).2.2,
      expandAll_cons]
    simp only [childrenOf, List.map_cons, List.flatten_cons, List.cons_append]
    rw [List.append_assoc]

theorem bfsVisits_eq_levels (q : List DNode) (m : ItemElementMap) (nid : Nat) :
    bfsVisits q m nid = (levelsE q m nid).flatten := by
  induction q, m, nid using levelsE.induct with
  | case1 m nid => simp [bfsVisits, bfsFull_nil, levelsE]
  | case2 c cs m nid r ih =>
    have hrot := bfs_rotate (c :: cs) [] m nid
    rw [List.append_nil, List.nil_append] at hrot
    have hlev : levelsE (c :: cs) m nid =
        (expandAll (c :: cs) m nid).1 ::
          levelsE (childrenOf (expandAll (c :: cs) m nid).1)
            (expandAll (c :: cs) m nid).2.1 (expandAll (c :: cs) m nid).2.2 := by
      rw [levelsE]
    rw [hrot, hlev, List.flatten_cons]
    exact congrArg _ ih

/-- C3: with resumeAfterLastMatch = false, searchTree returns precisely the
first match in BFS visit order over the lazily materialized tree — the
levels of levelsE list the items depth by depth, left to right, so the
returned match lies in the shallowest level containing any match and is the
leftmost match inside that level; if no label matches, the search reports
false and the last match is unchanged. -/
theorem c3_bfs_first_match (item : DNode) (q : String) (sa : Bool) (app : AppState) :
    ((searchTree item q false sa app).1 =
      ((levelsE [item] app.tree.itemElementMap app.tree.nextId).flatten.find?
        (matchesQ q app.caseSensitive)).isSome) ∧
    ((searchTree item q false sa app).2.lastMatch =
      match (levelsE [item] app.tree.itemElementMap app.tree.nextId).flatten.find?
          (matchesQ q app.caseSensitive) with
      | some x => some x.id
      | none => app.lastMatch) ∧
    (∀ x, (levelsE [item] app.tree.itemElementMap app.tree.nextId).flatten.find?
        (matchesQ q app.caseSensitive) = some x →
      matchesQ q app.caseSensitive x = true ∧
      ∃ shallowLevels sameLevelPre sameLevelPost deeperLevels,
        levelsE [item] app.tree.itemElementMap app.tree.nextId =
          shallowLevels ++ (sameLevelPre ++ x :: sameLevelPost) :: deeperLevels ∧
        (∀ lvl ∈ shallowLevels, ∀ y ∈ lvl, matchesQ q app.caseSensitive y = false) ∧
        (∀ y ∈ sameLevelPre, matchesQ q app.caseSensitive y = false)) ∧
    ((levelsE [item] app.tree.itemElementMap app.tree.nextId).flatten.find?
        (matchesQ q app.caseSensitive) = none →
      (searchTree item q false sa app).1 = false ∧
      (searchTree item q false sa app).2.lastMatch = app.lastMatch) := by
  have hspec := searchAux_true_spec q app.caseSensitive [item] true app rfl
  have hlv := bfsVisits_eq_levels [item] app.tree.itemElementMap app.tree.nextId
  have hfn : foundNode q app.caseSensitive [item]
      app.tree.itemElementMap app.tree.nextId =
      (levelsE [item] app.tree.itemElementMap app.tree.nextId).flatten.find?
        (matchesQ q app.caseSensitive) := by
    rw [foundNode, hlv]
  rw [hfn] at hspec
  have hwrap : searchTree item q false sa app =
      searchAux q app.caseSensitive [item] true app := rfl
  rw [hwrap]
  refine ⟨hspec.1, hspec.2.1, ?_, ?_⟩
  · intro x hx
    have hd := List.find?_flatten_eq_some.mp hx
    refine ⟨hd.1, ?_⟩
    obtain ⟨as, ys, zs, bs, hL, has, hys⟩ := hd.2
    refine ⟨as, ys, zs, bs, hL, ?_, ?_⟩
    · intro lvl hlvl y hy
      have := has lvl hlvl y hy
      simpa using this
    · intro y hy
      have := hys y hy
      simpa using this
  · intro hnone
    rw [hnone] at hspec
    exact ⟨hspec.1, hspec.2.1⟩

/-- C4: with resumeAfterLastMatch = true on a subtree whose BFS visit
sequence contains the stored last match, the last-match item is only the
resume boundary — it is never tested — and the search returns exactly the
first matching item strictly after it in BFS order (last match unchanged
when there is none). -/
theorem c4_resume_skips_last_match (item : DNode) (q : String) (sa : Bool)
    (app : AppState) (lm : Nat) (pre : List DNode) (b : DNode) (post : List DNode)
    (hlm : app.lastMatch = some lm)
    (hvis : bfsVisits [item] app.tree.itemElementMap app.tree.nextId = pre ++ b :: post)
    (hb : b.id = lm)
    (hpre : ∀ x ∈ pre, x.id ≠ lm) :
    ((searchTree item q true sa app).1 =
      (post.find? (matchesQ q app.caseSensitive)).isSome) ∧
    ((searchTree item q true sa app).2.lastMatch =
      match post.find? (matchesQ q app.caseSensitive) with
      | some x => some x.id
      | none => app.lastMatch) := by
  have h := searchAux_resume_spec q app.caseSensitive [item] false app rfl
    lm pre b post hlm hvis hb hpre
  exact ⟨h.1, h.2.1⟩

theorem c3_witness :
    (searchTree (.mk 0 "a" none [.mk 1 "ab" none []]) "ab" false false
        ⟨⟨[.mk 0 "a" none [.mk 1 "ab" none []]], [], 2⟩,
          "", "", none, [], none, true, none⟩).1 = true ∧
    (searchTree (.mk 0 "a" none [.mk 1 "ab" none []]) "ab" false false
        ⟨⟨[.mk 0 "a" none [.mk 1 "ab" none []]], [], 2⟩,
          "", "", none, [], none, true, none⟩).2.lastMatch = some 1 ∧
    matchesQ "ab" true (.mk 1 "ab" none []) = true := by
  have h := c3_bfs_first_match (.mk 0 "a" none [.mk 1 "ab" none []]) "ab" false
    ⟨⟨[.mk 0 "a" none [.mk 1 "ab" none []]], [], 2⟩, "", "", none, [], none, true, none⟩
  have hfind :
      (levelsE [.mk 0 "a" none [.mk 1 "ab" none []]] [] 2).flatten.find?
        (matchesQ "ab" true) = some (.mk 1 "ab" none []) := by
    simp [levelsE, expandAll, expandItem, regLookup, childrenOf, matchesQ,
      qContains, hasSub, leadsWith, DNode.label, DNode.children, DNode.id]
  have h3 := (h.2.2.1 _ hfind).1
  have h1 : (searchTree (.mk 0 "a" none [.mk 1 "ab" none []]) "ab" false false
      ⟨⟨[.mk 0 "a" none [.mk 1 "ab" none []]], [], 2⟩,
        "", "", none, [], none, true, none⟩).1 =
      (some (DNode.mk 1 "ab" none [])).isSome := by
    rw [h.1]
    exact congrArg Option.isSome hfind
  have h2 : (searchTree (.mk 0 "a" none [.mk 1 "ab" none []]) "ab" false false
      ⟨⟨[.mk 0 "a" none [.mk 1 "ab" none []]], [], 2⟩,
        "", "", none, [], none, true, none⟩).2.lastMatch =
      some 1 := by
    have h2' : (match (List.find? (matchesQ "ab" true)
        (levelsE [.mk 0 "a" none [.mk 1 "ab" none []]] [] 2).flatten) with
        | some x => some x.id
        | none => (none : Option Nat)) = some 1 := by
      rw [hfind]
      rfl
    exact h.2.1.trans h2'
  exact ⟨h1, h2, h3⟩

theorem c4_witness :
    (searchTree (.mk 0 "r" none [.mk 1 "ma" none [], .mk 2 "mb" none []]) "m" true false
        ⟨⟨[.mk 0 "r" none [.mk 1 "ma" none [], .mk 2 "mb" none []]], [], 3⟩,
          "", "", some 1, [], none, true, none⟩).1 = true ∧
    (searchTree (.mk 0 "r" none [.mk 1 "ma" none [], .mk 2 "mb" none []]) "m" true false
        ⟨⟨[.mk 0 "r" none [.mk 1 "ma" none [], .mk 2 "mb" none []]], [], 3⟩,
          "", "", some 1, [], none, true, none⟩).2.lastMatch = some 2 := by
  have hvis : bfsVisits [.mk 0 "r" none [.mk 1 "ma" none [], .mk 2 "mb" none []]]
      ([] : ItemElementMap) 3 =
      [.mk 0 "r" none [.mk 1 "ma" none [], .mk 2 "mb" none []],
        .mk 1 "ma" none [], .mk 2 "mb" none []] := by
    simp [bfsVisits, bfsFull_cons, bfsFull_nil, expandItem, regLookup,
      DNode.children, DNode.id]
  have h := c4_resume_skips_last_match
    (.mk 0 "r" none [.mk 1 "ma" none [], .mk 2 "mb" none []]) "m" false
    ⟨⟨[.mk 0 "r" none [.mk 1 "ma" none [], .mk 2 "mb" none []]], [], 3⟩,
      "", "", some 1, [], none, true, none⟩
    1 [.mk 0 "r" none [.mk 1 "ma" none [], .mk 2 "mb" none []]]
    (.mk 1 "ma" none []) [.mk 2 "mb" none []]
    rfl (by exact hvis) rfl
    (by
      intro x hx
      simp only [List.mem_singleton] at hx
      subst hx
      decide)
  have hpost : ([.mk 2 "mb" none []] : List DNode).find? (matchesQ "m" true) =
      some (.mk 2 "mb" none []) := by
    simp [matchesQ, qContains, hasSub, leadsWith, DNode.label]
  rw [hpost] at h
  exact ⟨h.1.trans rfl, h.2⟩

theorem searchNextLoop_nil (text : String) (past : Bool) (app : AppState) :
    searchNextLoop text [] past app = (app, SearchNextOutcome.noFurther) := rfl

theorem searchNextLoop_miss (text : String) (root : DNode) (roots : List DNode)
    (app : AppState) (h : (searchTree root text true false app).1 = false) :
    searchNextLoop text (root :: roots) false app =
      searchNextLoop text roots false (searchTree root text true false app).2 := by
  simp only [searchNextLoop, Bool.not_false, h, Bool.false_eq_true, if_false]

/-- C7: find-next does not wrap around.  The hypotheses encode the claim's
scenario over the two top-level roots: the recorded last match (identity
lm) occurs somewhere in the BFS visit sequence of one of the roots, no item
after it in that root matches the query, and the other root contains
neither the last-match item nor (when it is searched as a candidate) any
match.  Then clicking find-next with the unchanged recorded query exhausts
both roots, reports noFurther (the qInfo "No further matches found" path)
and does not re-return the old match, whose identity stays recorded. -/
theorem c7_no_wraparound (app : AppState) (r1 r2 : DNode) (lm : Nat)
    (htop : app.tree.topLevel = [r1, r2])
    (he : app.editText ≠ "")
    (hq : app.editText = app.lastSearchText)
    (hlm : app.lastMatch = some lm)
    (H :
      (∃ pre b post,
        bfsVisits [r1] app.tree.itemElementMap app.tree.nextId = pre ++ b :: post ∧
        b.id = lm ∧ (∀ x ∈ pre, x.id ≠ lm) ∧
        (∀ x ∈ post, matchesQ app.editText app.caseSensitive x = false) ∧
        (∀ x ∈ bfsVisits [r2]
            (bfsFull [r1] app.tree.itemElementMap app.tree.nextId).2.1
            (bfsFull [r1] app.tree.itemElementMap app.tree.nextId).2.2,
          x.id ≠ lm)) ∨
      ((∀ x ∈ bfsVisits [r1] app.tree.itemElementMap app.tree.nextId, x.id ≠ lm) ∧
       ∃ pre b post,
        bfsVisits [r2]
            (bfsFull [r1] app.tree.itemElementMap app.tree.nextId).2.1
            (bfsFull [r1] app.tree.itemElementMap app.tree.nextId).2.2
          = pre ++ b :: post ∧
        b.id = lm ∧ (∀ x ∈ pre, x.id ≠ lm) ∧
        (∀ x ∈ post, matchesQ app.editText app.caseSensitive x = false))) :
    (on_searchNextBtn_clicked app).2 = SearchNextOutcome.noFurther ∧
    (on_searchNextBtn_clicked app).1.lastMatch = some lm := by
  have hguard : ¬(app.editText = "" ∨ app.editText ≠ app.lastSearchText) := by
    intro hor
    rcases hor with hor | hor
    · exact he hor
    · exact hor hq
  have hstep0 : on_searchNextBtn_clicked app =
      searchNextLoop app.editText [r1, r2] false app := by
    simp only [on_searchNextBtn_clicked]
    rw [if_neg hguard, htop, hlm]
    rfl
  rw [hstep0]
  rcases H with ⟨pre, b, post, hvis, hb, hpre, hpost, hr2⟩ |
    ⟨hr1, pre, b, post, hvis, hb, hpre, hpost⟩
  · -- last match inside the first root
    have hres := searchAux_resume_spec app.editText app.caseSensitive [r1] false app
      rfl lm pre b post hlm hvis hb hpre
    have hfind : post.find? (matchesQ app.editText app.caseSensitive) = none :=
      List.find?_eq_none.mpr (fun x hx => by rw [hpost x hx]; exact Bool.false_ne_true)
    rw [hfind] at hres
    have hfst : (searchTree r1 app.editText true false app).1 = false := hres.1
    have hsnd : (searchTree r1 app.editText true false app).2 =
        { app with tree := ⟨app.tree.topLevel,
            (bfsFull [r1] app.tree.itemElementMap app.tree.nextId).2.1,
            (bfsFull [r1] app.tree.itemElementMap app.tree.nextId).2.2⟩ } :=
      hres.2.2 rfl
    rw [searchNextLoop_miss app.editText r1 [r2] app hfst, hsnd]
    have hmiss := searchAux_resume_miss app.editText app.caseSensitive [r2] false
      { app with tree := ⟨app.tree.topLevel,
          (bfsFull [r1] app.tree.itemElementMap app.tree.nextId).2.1,
          (bfsFull [r1] app.tree.itemElementMap app.tree.nextId).2.2⟩ }
      rfl
      (by
        intro x hx
        have hxid := hr2 x hx
        simp only [hlm]
        intro hc
        exact hxid (Option.some.inj hc).symm)
    have hfst2 : (searchTree r2 app.editText true false
        { app with tree := ⟨app.tree.topLevel,
            (bfsFull [r1] app.tree.itemElementMap app.tree.nextId).2.1,
            (bfsFull [r1] app.tree.itemElementMap app.tree.nextId).2.2⟩ }).1 = false := by
      rw [show searchTree r2 app.editText true false
          { app with tree := ⟨app.tree.topLevel,
              (bfsFull [r1] app.tree.itemElementMap app.tree.nextId).2.1,
              (bfsFull [r1] app.tree.itemElementMap app.tree.nextId).2.2⟩ } =
          searchAux app.editText app.caseSensitive [r2] false
            { app with tree := ⟨app.tree.topLevel,
              (bfsFull [r1] app.tree.itemElementMap app.tree.nextId).2.1,
              (bfsFull [r1] app.tree.itemElementMap app.tree.nextId).2.2⟩ } from rfl,
        hmiss]
    rw [searchNextLoop_miss app.editText r2 []
      { app with tree := ⟨app.tree.topLevel,
          (bfsFull [r1] app.tree.itemElementMap app.tree.nextId).2.1,
          (bfsFull [r1] app.tree.itemElementMap app.tree.nextId).2.2⟩ } hfst2,
      searchNextLoop_nil]
    refine ⟨rfl, ?_⟩
    rw [show searchTree r2 app.editText true false
        { app with tree := ⟨app.tree.topLevel,
            (bfsFull [r1] app.tree.itemElementMap app.tree.nextId).2.1,
            (bfsFull [r1] app.tree.itemElementMap app.tree.nextId).2.2⟩ } =
        searchAux app.editText app.caseSensitive [r2] false
          { app with tree := ⟨app.tree.topLevel,
            (bfsFull [r1] app.tree.itemElementMap app.tree.nextId).2.1,
            (bfsFull [r1] app.tree.itemElementMap app.tree.nextId).2.2⟩ } from rfl,
      hmiss]
    exact hlm
  · -- last match inside the second root
    have hmiss := searchAux_resume_miss app.editText app.caseSensitive [r1] false app
      rfl
      (by
        intro x hx
        have hxid := hr1 x hx
        simp only [hlm]
        intro hc
        exact hxid (Option.some.inj hc).symm)
    have hfst : (searchTree r1 app.editText true false app).1 = false := by
      rw [show searchTree r1 app.editText true false app =
          searchAux app.editText app.caseSensitive [r1] false app from rfl, hmiss]
    have hsnd : (searchTree r1 app.editText true false app).2 =
        { app with tree := ⟨app.tree.topLevel,
            (bfsFull [r1] app.tree.itemElementMap app.tree.nextId).2.1,
            (bfsFull [r1] app.tree.itemElementMap app.tree.nextId).2.2⟩ } := by
      rw [show searchTree r1 app.editText true false app =
          searchAux app.editText app.caseSensitive [r1] false app from rfl, hmiss]
    rw [searchNextLoop_miss app.editText r1 [r2] app hfst, hsnd]
    have hres := searchAux_resume_spec app.editText app.caseSensitive [r2] false
      { app with tree := ⟨app.tree.topLevel,
          (bfsFull [r1] app.tree.itemElementMap app.tree.nextId).2.1,
          (bfsFull [r1] app.tree.itemElementMap app.tree.nextId).2.2⟩ }
      rfl lm pre b post hlm hvis hb hpre
    have hfind : post.find? (matchesQ app.editText app.caseSensitive) = none :=
      List.find?_eq_none.mpr (fun x hx => by rw [hpost x hx]; exact Bool.false_ne_true)
    rw [hfind] at hres
    have hfst2 : (searchTree r2 app.editText true false
        { app with tree := ⟨app.tree.topLevel,
            (bfsFull [r1] app.tree.itemElementMap app.tree.nextId).2.1,
            (bfsFull [r1] app.tree.itemElementMap app.tree.nextId).2.2⟩ }).1 = false :=
      hres.1
    rw [searchNextLoop_miss app.editText r2 []
      { app with tree := ⟨app.tree.topLevel,
          (bfsFull [r1] app.tree.itemElementMap app.tree.nextId).2.1,
          (bfsFull [r1] app.tree.itemElementMap app.tree.nextId).2.2⟩ } hfst2,
      searchNextLoop_nil]
    exact ⟨rfl, hres.2.1.trans hlm⟩

theorem c7_witness :
    (on_searchNextBtn_clicked ⟨⟨[.mk 0 "ma" none [], .mk 1 "zz" none []], [], 2⟩,
        "ma", "ma", some 0, [], none, true, none⟩).2 = SearchNextOutcome.noFurther ∧
    (on_searchNextBtn_clicked ⟨⟨[.mk 0 "ma" none [], .mk 1 "zz" none []], [], 2⟩,
        "ma", "ma", some 0, [], none, true, none⟩).1.lastMatch = some 0 := by
  have hd : bfsFull [DNode.mk 0 "ma" none []] ([] : ItemElementMap) 2 =
      ([DNode.mk 0 "ma" none []], [], 2) := by
    simp [bfsFull_cons, bfsFull_nil, expandItem, regLookup, DNode.children, DNode.id]
  have hv1 : bfsVisits [DNode.mk 0 "ma" none []] ([] : ItemElementMap) 2 =
      [] ++ DNode.mk 0 "ma" none [] :: [] := by
    simp [bfsVisits, hd]
  have hv2 : bfsVisits [DNode.mk 1 "zz" none []] ([] : ItemElementMap) 2 =
      [DNode.mk 1 "zz" none []] := by
    simp [bfsVisits, bfsFull_cons, bfsFull_nil, expandItem, regLookup,
      DNode.children, DNode.id]
  refine c7_no_wraparound
    ⟨⟨[.mk 0 "ma" none [], .mk 1 "zz" none []], [], 2⟩,
      "ma", "ma", some 0, [], none, true, none⟩
    (.mk 0 "ma" none []) (.mk 1 "zz" none []) 0 rfl (by decide) rfl rfl
    (Or.inl ⟨[], .mk 0 "ma" none [], [], hv1, rfl,
      fun x hx => absurd hx (List.not_mem_nil x),
      fun x hx => absurd hx (List.not_mem_nil x),
      ?_⟩)
  intro x hx
  rw [show (bfsFull [DNode.mk 0 "ma" none []]
      ((⟨⟨[.mk 0 "ma" none [], .mk 1 "zz" none []], [], 2⟩,
        "ma", "ma", some 0, [], none, true, none⟩ : AppState)).tree.itemElementMap
      ((⟨⟨[.mk 0 "ma" none [], .mk 1 "zz" none []], [], 2⟩,
        "ma", "ma", some 0, [], none, true, none⟩ : AppState)).tree.nextId) =
    ([DNode.mk 0 "ma" none []], [], 2) from hd] at hx
  rw [show bfsVisits [DNode.mk 1 "zz" none []]
      (([DNode.mk 0 "ma" none []], ([] : ItemElementMap), 2) : List DNode × ItemElementMap × Nat).2.1
      (([DNode.mk 0 "ma" none []], ([] : ItemElementMap), 2) : List DNode × ItemElementMap × Nat).2.2 =
    [DNode.mk 1 "zz" none []] from hv2] at hx
  simp only [List.mem_singleton] at hx
  subst hx
  decide

mutual

/-- Every QTreeWidgetItem in a subtree, the root included. -/
def allNodesNode : DNode → List DNode
  | .mk i l c cs => .mk i l c cs :: allNodesList cs

def allNodesList : List DNode → List DNode
  | [] => []
  | n :: ns => allNodesNode n ++ allNodesList ns

end

/-- The shape tested at JsonReader.cpp:68: exactly one child whose text is
empty — the placeholder shape of a collapsed container item. -/
def isPendingShape : DNode → Bool
  | .mk _ _ _ [c] => c.label == ""
  | _ => false

theorem allNodesList_append (a b : List DNode) :
    allNodesList (a ++ b) = allNodesList a ++ allNodesList b := by
  induction a with
  | nil => simp [allNodesList]
  | cons n ns ih => simp [allNodesList, ih]

theorem mem_allNodesNode_self (n : DNode) : n ∈ allNodesNode n := by
  cases n with
  | mk i l c cs => exact List.mem_cons_self _ _

theorem regLookup_insert_self (k : Nat) (v : JsonValue) (m : ItemElementMap) :
    regLookup k (regInsert k v m) = some v := by
  simp [regInsert, regLookup, List.find?_cons]

theorem regLookup_cons_ne (k : Nat) (e : Nat × JsonValue) (es : ItemElementMap)
    (hek : (e.1 == k) = false) :
    regLookup k (e :: es) = regLookup k es := by
  simp [regLookup, List.find?_cons, hek]

theorem bne_false_eq {a b : Nat} (h : (a != b) = false) : a = b := by
  have hc : (a == b) = true := by
    cases hc : (a == b) with
    | true => rfl
    | false => simp [bne, hc] at h
  exact eq_of_beq hc

theorem regLookup_erase_ne (k k' : Nat) (m : ItemElementMap) (h : k' ≠ k) :
    regLookup k (regErase k' m) = regLookup k m := by
  induction m with
  | nil => simp [regErase, regLookup]
  | cons e es ih =>
    simp only [regErase, List.filter_cons]
    cases he : (e.1 != k') with
    | true =>
      simp only [if_pos]
      by_cases hek : (e.1 == k) = true
      · simp [regLookup, List.find?_cons, hek]
      · have hekf : (e.1 == k) = false := by simpa using hek
        rw [regLookup_cons_ne k e _ hekf, regLookup_cons_ne k e es hekf]
        simpa [regErase] using ih
    | false =>
      simp only [Bool.false_eq_true, if_neg, not_false_eq_true]
      have heq : e.1 = k' := bne_false_eq he
      have hekf : (e.1 == k) = false := by simp [heq, h]
      rw [regLookup_cons_ne k e es hekf]
      simpa [regErase] using ih

theorem regLookup_insert_ne (k k' : Nat) (v : JsonValue) (m : ItemElementMap)
    (h : k' ≠ k) :
    regLookup k (regInsert k' v m) = regLookup k m := by
  simp only [regInsert]
  rw [regLookup_cons_ne k (k', v) _ (by simp [h])]
  exact regLookup_erase_ne k k' m h

theorem mem_regInsert (e : Nat × JsonValue) (k : Nat) (v : JsonValue)
    (m : ItemElementMap) (h : e ∈ regInsert k v m) : e = (k, v) ∨ e ∈ m := by
  simp only [regInsert, List.mem_cons] at h
  rcases h with h | h
  · exact Or.inl h
  · exact Or.inr (List.mem_of_mem_filter h)

theorem mem_regErase (e : Nat × JsonValue) (k : Nat) (m : ItemElementMap)
    (h : e ∈ regErase k m) : e ∈ m ∧ e.1 ≠ k := by
  refine ⟨List.mem_of_mem_filter h, ?_⟩
  have := List.of_mem_filter h
  simpa [bne] using this

/-- Per-item consistency of the registry: an item is registered exactly
when it has the placeholder shape, registered values are containers,
registered items have a nonempty text, and an empty-text child (a
placeholder) is childless. -/
def nodeOK (r : ItemElementMap) (nd : DNode) : Prop :=
  (regContains nd.id r = true ↔ isPendingShape nd = true) ∧
  (regLookup nd.id r).all JsonValue.isContainer = true ∧
  (regContains nd.id r = true → nd.label ≠ "") ∧
  (∀ c ∈ nd.children, c.label = "" → c.children = [])

/-- What add_children_to_item guarantees for each materialized child. -/
def KidOK (lo hi : Nat) (r' : ItemElementMap) (c : DNode) : Prop :=
  lo ≤ c.id ∧ c.id < hi ∧ c.label ≠ "" ∧
  ((c.children = [] ∧ regLookup c.id r' = none) ∨
   (∃ pid v', c.children = [DNode.mk pid "" none []] ∧ lo ≤ pid ∧ pid < hi ∧
     regLookup pid r' = none ∧
     regLookup c.id r' = some v' ∧ v'.isContainer = true))

theorem regContains_of_mem (e : Nat × JsonValue) (m : ItemElementMap)
    (h : e ∈ m) : regContains e.1 m = true := by
  induction m with
  | nil => simp at h
  | cons e' es ih =>
    rcases List.mem_cons.mp h with h | h
    · subst h
      simp [regContains, regLookup, List.find?_cons]
    · by_cases he : (e'.1 == e.1) = true
      · simp [regContains, regLookup, List.find?_cons, he]
      · have hef : (e'.1 == e.1) = false := by simpa using he
        have := ih h
        simpa [regContains, regLookup_cons_ne e.1 e' es hef] using this

theorem regLookup_none_of_no_key (k : Nat) (m : ItemElementMap)
    (h : ∀ e ∈ m, e.1 ≠ k) : regLookup k m = none := by
  induction m with
  | nil => simp [regLookup]
  | cons e es ih =>
    have hek : (e.1 == k) = false := by
      simp [h e (List.mem_cons_self _ _)]
    rw [regLookup_cons_ne k e es hek]
    exact ih (fun e' he' => h e' (List.mem_cons_of_mem _ he'))

theorem hasId_false_iff (t : Nat) :
    (∀ n : DNode, hasIdNode t n = false ↔ ∀ x ∈ allNodesNode n, x.id ≠ t) ∧
    (∀ ns : List DNode, hasIdList t ns = false ↔ ∀ x ∈ allNodesList ns, x.id ≠ t) := by
  apply dnode_mutual_ind
    (fun n => hasIdNode t n = false ↔ ∀ x ∈ allNodesNode n, x.id ≠ t)
    (fun ns => hasIdList t ns = false ↔ ∀ x ∈ allNodesList ns, x.id ≠ t)
  · intro i l c cs ih
    simp only [hasIdNode, allNodesNode, Bool.or_eq_false_iff, List.mem_cons]
    constructor
    · rintro ⟨h1, h2⟩ x (hx | hx)
      · subst hx
        simp only [DNode.id]
        intro he
        rw [he] at h1
        simp at h1
      · exact (ih.mp h2) x hx
    · intro h
      constructor
      · have := h (.mk i l c cs) (Or.inl rfl)
        simp only [DNode.id] at this
        simp [this]
      · exact ih.mpr (fun x hx => h x (Or.inr hx))
  · simp [hasIdList, allNodesList]
  · intro n ns ihn ihns
    simp only [hasIdList, allNodesList, Bool.or_eq_false_iff, List.mem_append]
    constructor
    · rintro ⟨h1, h2⟩ x (hx | hx)
      · exact ihn.mp h1 x hx
      · exact ihns.mp h2 x hx
    · intro h
      exact ⟨ihn.mpr (fun x hx => h x (Or.inl hx)),
        ihns.mpr (fun x hx => h x (Or.inr hx))⟩

theorem forall₂_mem_right {α β : Type} {R : α → β → Prop} :
    ∀ {as : List α} {bs : List β}, List.Forall₂ R as bs →
    ∀ b ∈ bs, ∃ a ∈ as, R a b := by
  intro as bs h
  induction h with
  | nil => intro b hb; simp at hb
  | cons hR hrest ih =>
    intro b hb
    rcases List.mem_cons.mp hb with hb | hb
    · subst hb
      exact ⟨_, List.mem_cons_self _ _, hR⟩
    · obtain ⟨a, ha, hr⟩ := ih b hb
      exact ⟨a, List.mem_cons_of_mem _ ha, hr⟩

theorem isPendingShape_mk (i : Nat) (l : String) (co : Option QColor) :
    ∀ cs : List DNode,
    isPendingShape (.mk i l co cs) =
      match cs with
      | [c] => c.label == ""
      | _ => false := by
  intro cs
  rcases cs with _ | ⟨c, _ | ⟨c2, cs'⟩⟩ <;> rfl

theorem isPendingShape_congr (i i' : Nat) (l l' : String)
    (co co' : Option QColor) (cs cs' : List DNode)
    (h : List.Forall₂ (fun a b => b.id = a.id ∧ b.label = a.label ∧
      (a.children = [] → b.children = [])) cs cs') :
    isPendingShape (.mk i' l' co' cs') = isPendingShape (.mk i l co cs) := by
  cases h with
  | nil => rfl
  | cons hR hrest =>
    cases hrest with
    | nil =>
      rw [isPendingShape_mk, isPendingShape_mk]
      exact congrArg (fun s => s == "") hR.2.1
    | cons h2 h3 => rfl

theorem label_key_ne_empty (k s : String) : (k ++ ": " ++ s) ≠ "" := by
  intro h
  have := congrArg String.length h
  simp [String.length_append] at this
  exact absurd this.1.2 (by decide)

theorem nodeOK_congr (r r' : ItemElementMap) (nd : DNode)
    (h : regLookup nd.id r' = regLookup nd.id r) (hOK : nodeOK r nd) :
    nodeOK r' nd := by
  obtain ⟨h1, h2, h3, h4⟩ := hOK
  exact ⟨by rw [regContains, h]; exact h1, by rw [h]; exact h2,
    by rw [regContains, h]; exact h3, h4⟩

theorem mem_allNodesList_of_mem (c : DNode) (cs : List DNode) (h : c ∈ cs) :
    c ∈ allNodesList cs := by
  induction cs with
  | nil => simp at h
  | cons n ns ih =>
    simp only [allNodesList, List.mem_append]
    rcases List.mem_cons.mp h with h | h
    · subst h
      exact Or.inl (mem_allNodesNode_self c)
    · exact Or.inr (ih h)

theorem KidOK_mono (lo lo' hi hi' : Nat) (r r' : ItemElementMap) (c : DNode)
    (hlo : lo' ≤ lo) (hhi : hi ≤ hi')
    (hr : ∀ k, k < hi → regLookup k r' = regLookup k r)
    (hk : KidOK lo hi r c) : KidOK lo' hi' r' c := by
  obtain ⟨h1, h2, h3, h4⟩ := hk
  refine ⟨Nat.le_trans hlo h1, Nat.lt_of_lt_of_le h2 hhi, h3, ?_⟩
  rcases h4 with ⟨hc, hl⟩ | ⟨pid, v', hc, hp1, hp2, hpl, hl, hcv⟩
  · exact Or.inl ⟨hc, by rw [hr c.id h2]; exact hl⟩
  · exact Or.inr ⟨pid, v', hc, Nat.le_trans hlo hp1, Nat.lt_of_lt_of_le hp2 hhi,
      by rw [hr pid hp2]; exact hpl, by rw [hr c.id h2]; exact hl, hcv⟩

theorem dnode_eta (item : DNode) :
    DNode.mk item.id item.label item.color item.children = item := by
  cases item with
  | mk i l c cs => rfl

theorem add_child_spec (key : String) (value : JsonValue) (item : DNode)
    (m : ItemElementMap) (nid : Nat) (hkeys : ∀ e ∈ m, e.1 < nid) :
    ∃ c : DNode,
      (add_child key value item m nid).1 =
        DNode.mk item.id item.label item.color (item.children ++ [c]) ∧
      nid + 1 ≤ (add_child key value item m nid).2.2 ∧
      KidOK nid (add_child key value item m nid).2.2
        (add_child key value item m nid).2.1 c ∧
      (∀ x ∈ allNodesNode c,
        nid ≤ x.id ∧ x.id < (add_child key value item m nid).2.2) ∧
      ((allNodesNode c).map DNode.id).Nodup ∧
      (∀ k, k < nid →
        regLookup k (add_child key value item m nid).2.1 = regLookup k m) ∧
      (∀ e ∈ (add_child key value item m nid).2.1,
        e ∈ m ∨ (e.1 = c.id ∧ e.2.isContainer = true)) ∧
      (∀ e ∈ (add_child key value item m nid).2.1,
        e.1 < (add_child key value item m nid).2.2) := by
  cases hc : value.isContainer with
  | false =>
    refine ⟨.mk nid (key ++ ": " ++ (get_json_element_display value).value)
      (some (get_json_element_display value).color) [], ?_⟩
    have hA : add_child key value item m nid =
        (DNode.mk item.id item.label item.color (item.children ++
          [DNode.mk nid (key ++ ": " ++ (get_json_element_display value).value)
            (some (get_json_element_display value).color) []]), m, nid + 1) := by
      simp [add_child, hc]
    rw [hA]
    refine ⟨rfl, Nat.le_refl _, ?_, ?_, ?_, fun k _ => rfl, fun e he => Or.inl he, ?_⟩
    · refine ⟨Nat.le_refl _, Nat.lt_succ_self _, label_key_ne_empty _ _, Or.inl ⟨rfl, ?_⟩⟩
      exact regLookup_none_of_no_key nid m
        (fun e he => Nat.ne_of_lt (hkeys e he))
    · intro x hx
      simp only [allNodesNode, allNodesList, List.mem_singleton] at hx
      subst hx
      exact ⟨Nat.le_refl _, Nat.lt_succ_self _⟩
    · simp [allNodesNode, allNodesList]
    · intro e he
      exact Nat.lt_succ_of_lt (hkeys e he)
  | true =>
    refine ⟨.mk nid (key ++ ": " ++ (get_json_element_display value).value)
      (some (get_json_element_display value).color) [.mk (nid + 1) "" none []], ?_⟩
    have hA : add_child key value item m nid =
        (DNode.mk item.id item.label item.color (item.children ++
          [DNode.mk nid (key ++ ": " ++ (get_json_element_display value).value)
            (some (get_json_element_display value).color)
            [DNode.mk (nid + 1) "" none []]]),
         regInsert nid value m, nid + 2) := by
      simp [add_child, hc]
    rw [hA]
    refine ⟨rfl, by show nid + 1 ≤ nid + 2; omega, ?_, ?_, ?_, ?_, ?_, ?_⟩
    · refine ⟨Nat.le_refl _, ?_, label_key_ne_empty _ _,
        Or.inr ⟨nid + 1, value, rfl, by omega, ?_, ?_, ?_, hc⟩⟩
      · show nid < nid + 2
        omega
      · show nid + 1 < nid + 2
        omega
      · rw [regLookup_insert_ne (nid + 1) nid value m (by omega)]
        exact regLookup_none_of_no_key (nid + 1) m
          (fun e he => by have := hkeys e he; omega)
      · exact regLookup_insert_self nid value m
    · intro x hx
      simp only [allNodesNode, allNodesList, List.mem_cons, List.append_nil] at hx
      rcases hx with hx | hx
      · subst hx
        exact ⟨Nat.le_refl _, by show nid < nid + 2; omega⟩
      · rcases hx with hx | hx
        · subst hx
          exact ⟨by show nid ≤ nid + 1; omega, by show nid + 1 < nid + 2; omega⟩
        · simp at hx
    · simp [allNodesNode, allNodesList, DNode.id]
    · intro k hk
      exact regLookup_insert_ne k nid value m (by omega)
    · intro e he
      rcases mem_regInsert e nid value m he with he | he
      · subst he
        exact Or.inr ⟨rfl, hc⟩
      · exact Or.inl he
    · intro e he
      rcases mem_regInsert e nid value m he with he | he
      · subst he
        show nid < nid + 2
        omega
      · have := hkeys e he
        show e.1 < nid + 2
        omega

theorem addObjChildren_spec (fs : List (String × JsonValue)) :
    ∀ (item : DNode) (m : ItemElementMap) (nid : Nat),
    (∀ e ∈ m, e.1 < nid) →
    ∃ kids : List DNode,
      (addObjChildren fs item m nid).1 =
        DNode.mk item.id item.label item.color (item.children ++ kids) ∧
      nid ≤ (addObjChildren fs item m nid).2.2 ∧
      (∀ c ∈ kids, KidOK nid (addObjChildren fs item m nid).2.2
        (addObjChildren fs item m nid).2.1 c) ∧
      (∀ x ∈ allNodesList kids,
        nid ≤ x.id ∧ x.id < (addObjChildren fs item m nid).2.2) ∧
      ((allNodesList kids).map DNode.id).Nodup ∧
      (∀ k, k < nid →
        regLookup k (addObjChildren fs item m nid).2.1 = regLookup k m) ∧
      (∀ e ∈ (addObjChildren fs item m nid).2.1,
        e.1 < (addObjChildren fs item m nid).2.2) := by
  induction fs with
  | nil =>
    intro item m nid hkeys
    refine ⟨[], ?_, Nat.le_refl _, ?_, ?_, ?_, fun k _ => rfl, ?_⟩
    · rw [List.append_nil]
      exact (dnode_eta item).symm
    · intro c hc
      exact absurd hc (List.not_mem_nil c)
    · intro x hx
      simp [allNodesList] at hx
    · simp [allNodesList]
    · intro e he
      exact hkeys e he
  | cons kv fs ih =>
    intro item m nid hkeys
    obtain ⟨c1, a1, a2, a3, a4, a5, a6, _, a8⟩ := add_child_spec kv.1 kv.2 item m nid hkeys
    obtain ⟨kids', b1, b2, b3, b4, b5, b6, b7⟩ :=
      ih (add_child kv.1 kv.2 item m nid).1 (add_child kv.1 kv.2 item m nid).2.1
        (add_child kv.1 kv.2 item m nid).2.2 a8
    have hstep : addObjChildren (kv :: fs) item m nid =
        addObjChildren fs (add_child kv.1 kv.2 item m nid).1
          (add_child kv.1 kv.2 item m nid).2.1
          (add_child kv.1 kv.2 item m nid).2.2 := rfl
    refine ⟨c1 :: kids', ?_, ?_, ?_, ?_, ?_, ?_, ?_⟩
    · rw [hstep, b1, a1]
      simp [DNode.id, DNode.label, DNode.color, DNode.children, List.append_assoc]
    · rw [hstep]
      omega
    · intro c hc
      rw [hstep]
      rcases List.mem_cons.mp hc with hc | hc
      · subst hc
        refine KidOK_mono nid nid (add_child kv.1 kv.2 item m nid).2.2 _ _ _ c
          (Nat.le_refl _) b2 (fun k hk => b6 k hk) a3
      · refine KidOK_mono (add_child kv.1 kv.2 item m nid).2.2 nid _ _ _ _ c
          (by omega) (Nat.le_refl _) (fun k _ => rfl) (b3 c hc)
    · intro x hx
      rw [hstep]
      simp only [allNodesList, List.mem_append] at hx
      rcases hx with hx | hx
      · have := a4 x hx
        omega
      · have := b4 x hx
        omega
    · simp only [allNodesList, List.map_append, List.nodup_append]
      refine ⟨a5, b5, ?_⟩
      intro a ha hb
      obtain ⟨x, hx, rfl⟩ := List.mem_map.mp ha
      obtain ⟨y, hy, hxy⟩ := List.mem_map.mp hb
      have h1 := a4 x hx
      have h2 := b4 y hy
      omega
    · intro k hk
      rw [hstep, b6 k (by omega)]
      exact a6 k hk
    · intro e he
      rw [hstep]
      exact b7 e (by rw [hstep] at he; exact he)

theorem addArrChildren_spec (vs : List JsonValue) :
    ∀ (index : Nat) (item : DNode) (m : ItemElementMap) (nid : Nat),
    (∀ e ∈ m, e.1 < nid) →
    ∃ kids : List DNode,
      (addArrChildren vs index item m nid).1 =
        DNode.mk item.id item.label item.color (item.children ++ kids) ∧
      nid ≤ (addArrChildren vs index item m nid).2.2 ∧
      (∀ c ∈ kids, KidOK nid (addArrChildren vs index item m nid).2.2
        (addArrChildren vs index item m nid).2.1 c) ∧
      (∀ x ∈ allNodesList kids,
        nid ≤ x.id ∧ x.id < (addArrChildren vs index item m nid).2.2) ∧
      ((allNodesList kids).map DNode.id).Nodup ∧
      (∀ k, k < nid →
        regLookup k (addArrChildren vs index item m nid).2.1 = regLookup k m) ∧
      (∀ e ∈ (addArrChildren vs index item m nid).2.1,
        e.1 < (addArrChildren vs index item m nid).2.2) := by
  induction vs with
  | nil =>
    intro index item m nid hkeys
    refine ⟨[], ?_, Nat.le_refl _, ?_, ?_, ?_, fun k _ => rfl, ?_⟩
    · rw [List.append_nil]
      exact (dnode_eta item).symm
    · intro c hc
      exact absurd hc (List.not_mem_nil c)
    · intro x hx
      simp [allNodesList] at hx
    · simp [allNodesList]
    · intro e he
      exact hkeys e he
  | cons v vs ih =>
    intro index item m nid hkeys
    obtain ⟨c1, a1, a2, a3, a4, a5, a6, _, a8⟩ :=
      add_child_spec (toString index) v item m nid hkeys
    obtain ⟨kids', b1, b2, b3, b4, b5, b6, b7⟩ :=
      ih (index + 1) (add_child (toString index) v item m nid).1
        (add_child (toString index) v item m nid).2.1
        (add_child (toString index) v item m nid).2.2 a8
    have hstep : addArrChildren (v :: vs) index item m nid =
        addArrChildren vs (index + 1) (add_child (toString index) v item m nid).1
          (add_child (toString index) v item m nid).2.1
          (add_child (toString index) v item m nid).2.2 := rfl
    refine ⟨c1 :: kids', ?_, ?_, ?_, ?_, ?_, ?_, ?_⟩
    · rw [hstep, b1, a1]
      simp [DNode.id, DNode.label, DNode.color, DNode.children, List.append_assoc]
    · rw [hstep]
      omega
    · intro c hc
      rw [hstep]
      rcases List.mem_cons.mp hc with hc | hc
      · subst hc
        refine KidOK_mono nid nid (add_child (toString index) v item m nid).2.2 _ _ _ c
          (Nat.le_refl _) b2 (fun k hk => b6 k hk) a3
      · refine KidOK_mono (add_child (toString index) v item m nid).2.2 nid _ _ _ _ c
          (by omega) (Nat.le_refl _) (fun k _ => rfl) (b3 c hc)
    · intro x hx
      rw [hstep]
      simp only [allNodesList, List.mem_append] at hx
      rcases hx with hx | hx
      · have := a4 x hx
        omega
      · have := b4 x hx
        omega
    · simp only [allNodesList, List.map_append, List.nodup_append]
      refine ⟨a5, b5, ?_⟩
      intro a ha hb
      obtain ⟨x, hx, rfl⟩ := List.mem_map.mp ha
      obtain ⟨y, hy, hxy⟩ := List.mem_map.mp hb
      have h1 := a4 x hx
      have h2 := b4 y hy
      omega
    · intro k hk
      rw [hstep, b6 k (by omega)]
      exact a6 k hk
    · intro e he
      rw [hstep]
      exact b7 e (by rw [hstep] at he; exact he)

theorem ACI_spec (element : JsonValue) (item : DNode) (m : ItemElementMap)
    (nid : Nat) (hkeys : ∀ e ∈ m, e.1 < nid) :
    ∃ kids : List DNode,
      (add_children_to_item item element m nid).1 =
        DNode.mk item.id item.label item.color (item.children ++ kids) ∧
      nid ≤ (add_children_to_item item element m nid).2.2 ∧
      (∀ c ∈ kids, KidOK nid (add_children_to_item item element m nid).2.2
        (add_children_to_item item element m nid).2.1 c) ∧
      (∀ x ∈ allNodesList kids,
        nid ≤ x.id ∧ x.id < (add_children_to_item item element m nid).2.2) ∧
      ((allNodesList kids).map DNode.id).Nodup ∧
      (∀ k, k < nid →
        regLookup k (add_children_to_item item element m nid).2.1 =
          regLookup k m) ∧
      (∀ e ∈ (add_children_to_item item element m nid).2.1,
        e.1 < (add_children_to_item item element m nid).2.2) := by
  cases element with
  | obj fields => exact addObjChildren_spec fields item m nid hkeys
  | arr elems => exact addArrChildren_spec elems 0 item m nid hkeys
  | int64 i =>
    refine ⟨[], ?_, Nat.le_refl _, fun c hc => absurd hc (List.not_mem_nil c),
      fun x hx => by simp [allNodesList] at hx, by simp [allNodesList],
      fun k _ => rfl, fun e he => hkeys e he⟩
    rw [List.append_nil]
    exact (dnode_eta item).symm
  | uint64 u =>
    refine ⟨[], ?_, Nat.le_refl _, fun c hc => absurd hc (List.not_mem_nil c),
      fun x hx => by simp [allNodesList] at hx, by simp [allNodesList],
      fun k _ => rfl, fun e he => hkeys e he⟩
    rw [List.append_nil]
    exact (dnode_eta item).symm
  | double q =>
    refine ⟨[], ?_, Nat.le_refl _, fun c hc => absurd hc (List.not_mem_nil c),
      fun x hx => by simp [allNodesList] at hx, by simp [allNodesList],
      fun k _ => rfl, fun e he => hkeys e he⟩
    rw [List.append_nil]
    exact (dnode_eta item).symm
  | str s =>
    refine ⟨[], ?_, Nat.le_refl _, fun c hc => absurd hc (List.not_mem_nil c),
      fun x hx => by simp [allNodesList] at hx, by simp [allNodesList],
      fun k _ => rfl, fun e he => hkeys e he⟩
    rw [List.append_nil]
    exact (dnode_eta item).symm
  | bool b =>
    refine ⟨[], ?_, Nat.le_refl _, fun c hc => absurd hc (List.not_mem_nil c),
      fun x hx => by simp [allNodesList] at hx, by simp [allNodesList],
      fun k _ => rfl, fun e he => hkeys e he⟩
    rw [List.append_nil]
    exact (dnode_eta item).symm
  | null =>
    refine ⟨[], ?_, Nat.le_refl _, fun c hc => absurd hc (List.not_mem_nil c),
      fun x hx => by simp [allNodesList] at hx, by simp [allNodesList],
      fun k _ => rfl, fun e he => hkeys e he⟩
    rw [List.append_nil]
    exact (dnode_eta item).symm
  | unknown =>
    refine ⟨[], ?_, Nat.le_refl _, fun c hc => absurd hc (List.not_mem_nil c),
      fun x hx => by simp [allNodesList] at hx, by simp [allNodesList],
      fun k _ => rfl, fun e he => hkeys e he⟩
    rw [List.append_nil]
    exact (dnode_eta item).symm

theorem nodeOK_of_KidOK (lo hi : Nat) (r : ItemElementMap) (c : DNode)
    (hk : KidOK lo hi r c) : ∀ x ∈ allNodesNode c, nodeOK r x := by
  obtain ⟨h1, h2, h3, h4⟩ := hk
  intro x hx
  rcases h4 with ⟨hc, hl⟩ | ⟨pid, v', hc, hp1, hp2, hpl, hl, hcv⟩
  · cases c with
    | mk i l co cs =>
      simp only [DNode.children] at hc
      subst hc
      simp only [allNodesNode, allNodesList, List.append_nil,
        List.mem_singleton] at hx
      subst hx
      refine ⟨?_, ?_, ?_, ?_⟩
      · rw [regContains, hl]
        simp [isPendingShape]
      · rw [hl]
        rfl
      · intro hco
        rw [regContains, hl] at hco
        simp at hco
      · intro ch hch
        simp [DNode.children] at hch
  · cases c with
    | mk i l co cs =>
      simp only [DNode.children] at hc
      subst hc
      simp only [allNodesNode, allNodesList, List.append_nil] at hx
      rcases List.mem_cons.mp hx with hx | hx
      · subst hx
        refine ⟨?_, ?_, fun _ => h3, ?_⟩
        · rw [regContains, hl]
          simp [isPendingShape, DNode.label]
        · rw [hl]
          simpa using hcv
        · intro ch hch
          simp only [DNode.children, List.mem_singleton] at hch
          subst hch
          intro _
          rfl
      · rcases List.mem_cons.mp hx with hx | hx
        · subst hx
          have hpl' : regLookup (DNode.mk pid "" none []).id r = none := hpl
          refine ⟨?_, ?_, ?_, ?_⟩
          · rw [regContains, hpl']
            simp [isPendingShape]
          · rw [hpl']
            rfl
          · intro hco
            rw [regContains, hpl'] at hco
            simp at hco
          · intro ch hch
            simp [DNode.children] at hch
        · simp at hx

theorem isPendingShape_false_of_labels (i : Nat) (l : String)
    (co : Option QColor) (kids : List DNode)
    (h : ∀ c ∈ kids, c.label ≠ "") :
    isPendingShape (.mk i l co kids) = false := by
  rcases kids with _ | ⟨c, _ | ⟨c2, cs'⟩⟩
  · rfl
  · rw [isPendingShape_mk]
    have := h c (List.mem_cons_self _ _)
    simpa using this
  · rfl

theorem mem_allNodesList_exists (x : DNode) (cs : List DNode)
    (h : x ∈ allNodesList cs) : ∃ c ∈ cs, x ∈ allNodesNode c := by
  induction cs with
  | nil => simp [allNodesList] at h
  | cons n ns ih =>
    simp only [allNodesList, List.mem_append] at h
    rcases h with h | h
    · exact ⟨n, List.mem_cons_self _ _, h⟩
    · obtain ⟨c, hc, hx⟩ := ih h
      exact ⟨c, List.mem_cons_of_mem _ hc, hx⟩

theorem expandItem_spec (item : DNode) (m : ItemElementMap) (nid : Nat)
    (v : JsonValue) (hl : regLookup item.id m = some v)
    (hp : isPendingShape item = true) (hid : item.id < nid)
    (hkeys : ∀ e ∈ m, e.1 < nid) :
    ∃ kids : List DNode,
      (expandItem item m nid).1 =
        DNode.mk item.id item.label item.color kids ∧
      nid ≤ (expandItem item m nid).2.2 ∧
      (∀ c ∈ kids, c.label ≠ "") ∧
      (∀ x ∈ allNodesList kids,
        nid ≤ x.id ∧ x.id < (expandItem item m nid).2.2) ∧
      ((allNodesList kids).map DNode.id).Nodup ∧
      (∀ x ∈ allNodesList kids, nodeOK (expandItem item m nid).2.1 x) ∧
      regLookup item.id (expandItem item m nid).2.1 = none ∧
      (∀ k, k < nid → k ≠ item.id →
        regLookup k (expandItem item m nid).2.1 = regLookup k m) ∧
      (∀ e ∈ (expandItem item m nid).2.1,
        e.1 < (expandItem item m nid).2.2) := by
  cases item with
  | mk i l co cs =>
    rcases hcs : cs with _ | ⟨c0, _ | ⟨c1, cs'⟩⟩
    · subst hcs
      simp [isPendingShape] at hp
    · subst hcs
      rw [isPendingShape_mk] at hp
      have hp' : (c0.label == "") = true := hp
      have hrp : removePlaceholder (DNode.mk i l co [c0]) =
          DNode.mk i l co [] := by
        simp only [removePlaceholder, DNode.children]
        rw [if_pos hp']
        rfl
      have hstep : expandItem (DNode.mk i l co [c0]) m nid =
          ((add_children_to_item (DNode.mk i l co []) v m nid).1,
           regErase i (add_children_to_item (DNode.mk i l co []) v m nid).2.1,
           (add_children_to_item (DNode.mk i l co []) v m nid).2.2) := by
        show (match regLookup (DNode.mk i l co [c0]).id m with
          | none => (DNode.mk i l co [c0], m, nid)
          | some element =>
            let r := add_children_to_item
              (removePlaceholder (DNode.mk i l co [c0])) element m nid
            (r.1, regErase (DNode.mk i l co [c0]).id r.2.1, r.2.2)) = _
        rw [hl, hrp]
        rfl
      obtain ⟨kids, a1, a2, a3, a4, a5, a6, a7⟩ :=
        ACI_spec v (DNode.mk i l co []) m nid hkeys
      have hid' : (DNode.mk i l co [c0]).id = i := rfl
      rw [hid'] at hid
      refine ⟨kids, ?_, ?_, ?_, ?_, a5, ?_, ?_, ?_, ?_⟩
      · rw [hstep]
        rw [a1]
        rfl
      · rw [hstep]
        exact a2
      · intro c hc
        exact (a3 c hc).2.2.1
      · intro x hx
        rw [hstep]
        exact a4 x hx
      · intro x hx
        rw [hstep]
        obtain ⟨c, hc, hxc⟩ := mem_allNodesList_exists x kids hx
        have hOK := nodeOK_of_KidOK nid _ _ c (a3 c hc) x hxc
        refine nodeOK_congr _ _ x ?_ hOK
        have hxr := a4 x hx
        exact regLookup_erase_ne x.id i _ (by omega)
      · rw [hstep]
        exact regLookup_erase_self i _
      · intro k hk hki
        rw [hstep]
        rw [regLookup_erase_ne k i _ (fun he => hki he.symm)]
        exact a6 k hk
      · intro e he
        rw [hstep] at he ⊢
        have := mem_regErase e i _ he
        exact a7 e this.1
    · subst hcs
      simp [isPendingShape] at hp

/-- Hypotheses of the expansion step on a forest whose nodes are olds:
identities below the counter and pairwise distinct, per-item registry
consistency, registry keys below the counter. -/
def ExpandIn (m : ItemElementMap) (nid : Nat) (olds : List DNode) : Prop :=
  (∀ x ∈ olds, x.id < nid) ∧
  (olds.map DNode.id).Nodup ∧
  (∀ x ∈ olds, nodeOK m x) ∧
  (∀ e ∈ m, e.1 < nid)

/-- Conclusions of the expansion step: the same shape of facts about the
new forest, plus registry stability away from the target and identity
provenance. -/
def ExpandOut (t : Nat) (m : ItemElementMap) (nid : Nat)
    (olds news : List DNode) (r' : ItemElementMap) (n' : Nat) : Prop :=
  nid ≤ n' ∧
  (∀ x ∈ news, x.id < n') ∧
  (news.map DNode.id).Nodup ∧
  (∀ x ∈ news, nodeOK r' x) ∧
  (∀ e ∈ r', e.1 < n') ∧
  (∀ k, k < nid → k ≠ t → regLookup k r' = regLookup k m) ∧
  (∀ x ∈ news, x.id ∈ olds.map DNode.id ∨ nid ≤ x.id)

/-- The relation between a node and its image under the expansion step:
identity and label kept, childlessness kept. -/
def SameShape (a b : DNode) : Prop :=
  b.id = a.id ∧ b.label = a.label ∧ (a.children = [] → b.children = [])

theorem sameShape_refl (a : DNode) : SameShape a a := ⟨rfl, rfl, fun h => h⟩

theorem forall₂_sameShape_refl (l : List DNode) : List.Forall₂ SameShape l l := by
  induction l with
  | nil => exact List.Forall₂.nil
  | cons a l ih => exact List.Forall₂.cons (sameShape_refl a) ih

theorem hasIdNode_true_exists (t : Nat) (n : DNode) (h : hasIdNode t n = true) :
    ∃ x ∈ allNodesNode n, x.id = t := by
  by_contra hc
  push_neg at hc
  have hf := ((hasId_false_iff t).1 n).mpr hc
  rw [hf] at h
  exact absurd h (by decide)

theorem hasIdList_true_exists (t : Nat) (ns : List DNode)
    (h : hasIdList t ns = true) : ∃ x ∈ allNodesList ns, x.id = t := by
  by_contra hc
  push_neg at hc
  have hf := ((hasId_false_iff t).2 ns).mpr hc
  rw [hf] at h
  exact absurd h (by decide)

theorem expand_pres (t : Nat) :
    (∀ n : DNode, ∀ m nid, ExpandIn m nid (allNodesNode n) →
      ExpandOut t m nid (allNodesNode n)
        (allNodesNode (expandNode t n m nid).1)
        (expandNode t n m nid).2.1 (expandNode t n m nid).2.2 ∧
      SameShape n (expandNode t n m nid).1) ∧
    (∀ ns : List DNode, ∀ m nid, ExpandIn m nid (allNodesList ns) →
      ExpandOut t m nid (allNodesList ns)
        (allNodesList (expandList t ns m nid).1)
        (expandList t ns m nid).2.1 (expandList t ns m nid).2.2 ∧
      List.Forall₂ SameShape ns (expandList t ns m nid).1) := by
  apply dnode_mutual_ind
    (fun n => ∀ m nid, ExpandIn m nid (allNodesNode n) →
      ExpandOut t m nid (allNodesNode n)
        (allNodesNode (expandNode t n m nid).1)
        (expandNode t n m nid).2.1 (expandNode t n m nid).2.2 ∧
      SameShape n (expandNode t n m nid).1)
    (fun ns => ∀ m nid, ExpandIn m nid (allNodesList ns) →
      ExpandOut t m nid (allNodesList ns)
        (allNodesList (expandList t ns m nid).1)
        (expandList t ns m nid).2.1 (expandList t ns m nid).2.2 ∧
      List.Forall₂ SameShape ns (expandList t ns m nid).1)
  · -- node case
    intro i l c cs ih m nid hin
    obtain ⟨hlt, hnodup, hOK, hkeys⟩ := hin
    by_cases hit : i = t
    · subst hit
      have hstep : expandNode i (DNode.mk i l c cs) m nid =
          expandItem (DNode.mk i l c cs) m nid := by
        simp [expandNode, DNode.id]
      cases hl : regLookup (DNode.mk i l c cs).id m with
      | none =>
        have hnoop : expandItem (DNode.mk i l c cs) m nid =
            (DNode.mk i l c cs, m, nid) := by
          simp [expandItem, hl]
        rw [hstep, hnoop]
        refine ⟨⟨Nat.le_refl _, hlt, hnodup, hOK, hkeys, fun k _ _ => rfl, ?_⟩,
          sameShape_refl _⟩
        intro x hx
        exact Or.inl (List.mem_map_of_mem DNode.id hx)
      | some v =>
        have hself := hOK (DNode.mk i l c cs) (mem_allNodesNode_self _)
        have hp : isPendingShape (DNode.mk i l c cs) = true := by
          refine hself.1.mp ?_
          rw [regContains, hl]
          rfl
        have hidlt : (DNode.mk i l c cs).id < nid :=
          hlt _ (mem_allNodesNode_self _)
        have hidlt' : i < nid := hidlt
        obtain ⟨kids, e1, e2, e3, e4, e5, e6, e7, e8, e9⟩ :=
          expandItem_spec (DNode.mk i l c cs) m nid v hl hp hidlt hkeys
        rw [hstep, e1]
        have hi : (DNode.mk (DNode.mk i l c cs).id (DNode.mk i l c cs).label
            (DNode.mk i l c cs).color kids) = DNode.mk i l c kids := rfl
        rw [hi]
        have e7' : regLookup i (expandItem (DNode.mk i l c cs) m nid).2.1 =
            none := e7
        have e3' : ∀ k ∈ kids, k.label ≠ "" := e3
        constructor
        · refine ⟨e2, ?_, ?_, ?_, e9, ?_, ?_⟩
          · intro x hx
            simp only [allNodesNode, List.mem_cons] at hx
            rcases hx with hx | hx
            · subst hx
              have : (DNode.mk i l c kids).id = i := rfl
              rw [this]
              omega
            · exact (e4 x hx).2
          · simp only [allNodesNode, List.map_cons]
            refine List.nodup_cons.mpr ⟨?_, e5⟩
            intro hmem
            obtain ⟨x, hx, hxi⟩ := List.mem_map.mp hmem
            have := e4 x hx
            have hxi' : x.id = i := hxi
            omega
          · intro x hx
            simp only [allNodesNode, List.mem_cons] at hx
            rcases hx with hx | hx
            · subst hx
              refine ⟨?_, ?_, ?_, ?_⟩
              · rw [regContains]
                have hic : regLookup (DNode.mk i l c kids).id
                    (expandItem (DNode.mk i l c cs) m nid).2.1 = none := e7'
                rw [hic]
                simp [isPendingShape_false_of_labels i l c kids e3']
              · have hic : regLookup (DNode.mk i l c kids).id
                    (expandItem (DNode.mk i l c cs) m nid).2.1 = none := e7'
                rw [hic]
                rfl
              · intro hco
                rw [regContains] at hco
                have hic : regLookup (DNode.mk i l c kids).id
                    (expandItem (DNode.mk i l c cs) m nid).2.1 = none := e7'
                rw [hic] at hco
                simp at hco
              · intro ch hch hchl
                exact absurd hchl (e3' ch hch)
            · exact e6 x hx
          · intro k hk hki
            exact e8 k hk hki
          · intro x hx
            simp only [allNodesNode, List.mem_cons] at hx
            rcases hx with hx | hx
            · subst hx
              refine Or.inl ?_
              simp only [allNodesNode, List.map_cons]
              exact List.mem_cons_self _ _
            · exact Or.inr (e4 x hx).1
        · refine ⟨rfl, rfl, ?_⟩
          intro hcs0
          have hcs0' : cs = [] := hcs0
          rw [hcs0'] at hp
          simp [isPendingShape] at hp
    · have hstep : expandNode t (DNode.mk i l c cs) m nid =
          (DNode.mk i l c (expandList t cs m nid).1,
           (expandList t cs m nid).2.1, (expandList t cs m nid).2.2) := by
        simp only [expandNode, DNode.id]
        rw [if_neg hit]
      have hselflt : i < nid := hlt _ (mem_allNodesNode_self _)
      simp only [allNodesNode, List.map_cons, DNode.id] at hnodup
      obtain ⟨hnotin, htail⟩ := List.nodup_cons.mp hnodup
      have hlt' : ∀ x ∈ allNodesList cs, x.id < nid := by
        intro x hx
        exact hlt x (by simp only [allNodesNode]; exact List.mem_cons_of_mem _ hx)
      have hOK' : ∀ x ∈ allNodesList cs, nodeOK m x := by
        intro x hx
        exact hOK x (by simp only [allNodesNode]; exact List.mem_cons_of_mem _ hx)
      obtain ⟨⟨o1, o2, o3, o4, o5, o6, o7⟩, hshape⟩ :=
        ih m nid ⟨hlt', htail, hOK', hkeys⟩
      rw [hstep]
      have hselfOK := hOK (DNode.mk i l c cs) (mem_allNodesNode_self _)
      have hstab : regLookup i (expandList t cs m nid).2.1 = regLookup i m :=
        o6 i hselflt hit
      constructor
      · refine ⟨o1, ?_, ?_, ?_, o5, o6, ?_⟩
        · intro x hx
          simp only [allNodesNode, List.mem_cons] at hx
          rcases hx with hx | hx
          · subst hx
            show (DNode.mk i l c (expandList t cs m nid).1).id <
              (expandList t cs m nid).2.2
            have hii : (DNode.mk i l c (expandList t cs m nid).1).id = i := rfl
            rw [hii]
            omega
          · exact o2 x hx
        · simp only [allNodesNode, List.map_cons, DNode.id]
          refine List.nodup_cons.mpr ⟨?_, o3⟩
          intro hmem
          obtain ⟨x, hx, hxi⟩ := List.mem_map.mp hmem
          rcases o7 x hx with hmem2 | hbig
          · rw [hxi] at hmem2
            exact hnotin hmem2
          · omega
        · intro x hx
          simp only [allNodesNode, List.mem_cons] at hx
          rcases hx with hx | hx
          · subst hx
            have hps : isPendingShape (DNode.mk i l c (expandList t cs m nid).1)
                = isPendingShape (DNode.mk i l c cs) :=
              isPendingShape_congr i i l l c c cs (expandList t cs m nid).1 hshape
            have hid2 : (DNode.mk i l c (expandList t cs m nid).1).id = i := rfl
            have hid1 : (DNode.mk i l c cs).id = i := rfl
            obtain ⟨s1, s2, s3, s4⟩ := hselfOK
            rw [hid1] at s1 s2 s3
            refine ⟨?_, ?_, ?_, ?_⟩
            · rw [regContains, hid2, hstab, hps]
              rw [regContains] at s1
              exact s1
            · rw [hid2, hstab]
              exact s2
            · intro hco
              rw [regContains, hid2, hstab] at hco
              rw [regContains] at s3
              exact s3 hco
            · intro ch hch hchl
              have hch' : ch ∈ (expandList t cs m nid).1 := hch
              obtain ⟨a, ha, hrel⟩ := forall₂_mem_right hshape ch hch'
              have hal : a.label = "" := by rw [← hrel.2.1]; exact hchl
              have hac : a.children = [] := s4 a ha hal
              exact hrel.2.2 hac
          · exact o4 x hx
        · intro x hx
          simp only [allNodesNode, List.mem_cons] at hx
          rcases hx with hx | hx
          · subst hx
            refine Or.inl ?_
            simp only [allNodesNode, List.map_cons]
            have : (DNode.mk i l c (expandList t cs m nid).1).id =
                (DNode.mk i l c cs).id := rfl
            rw [this]
            exact List.mem_cons_self _ _
          · rcases o7 x hx with hmem2 | hbig
            · refine Or.inl ?_
              simp only [allNodesNode, List.map_cons]
              exact List.mem_cons_of_mem _ hmem2
            · exact Or.inr hbig
      · refine ⟨rfl, rfl, ?_⟩
        intro hcs0
        have hcs0' : cs = [] := hcs0
        subst hcs0'
        show (expandList t ([] : List DNode) m nid).1 = []
        simp [expandList]
  · -- nil case
    intro m nid hin
    obtain ⟨hlt, hnodup, hOK, hkeys⟩ := hin
    have hstep : expandList t ([] : List DNode) m nid = ([], m, nid) := by
      simp [expandList]
    rw [hstep]
    refine ⟨⟨Nat.le_refl _, ?_, ?_, ?_, hkeys, fun k _ _ => rfl, ?_⟩,
      List.Forall₂.nil⟩
    · intro x hx
      simp [allNodesList] at hx
    · simp [allNodesList]
    · intro x hx
      simp [allNodesList] at hx
    · intro x hx
      simp [allNodesList] at hx
  · -- cons case
    intro n ns ihn ihns m nid hin
    obtain ⟨hlt, hnodup, hOK, hkeys⟩ := hin
    simp only [allNodesList, List.map_append] at hnodup
    obtain ⟨hnodL, hnodR, hdisj⟩ := List.nodup_append.mp hnodup
    have hltL : ∀ x ∈ allNodesNode n, x.id < nid := by
      intro x hx
      exact hlt x (by simp only [allNodesList, List.mem_append]; exact Or.inl hx)
    have hltR : ∀ x ∈ allNodesList ns, x.id < nid := by
      intro x hx
      exact hlt x (by simp only [allNodesList, List.mem_append]; exact Or.inr hx)
    have hOKL : ∀ x ∈ allNodesNode n, nodeOK m x := by
      intro x hx
      exact hOK x (by simp only [allNodesList, List.mem_append]; exact Or.inl hx)
    have hOKR : ∀ x ∈ allNodesList ns, nodeOK m x := by
      intro x hx
      exact hOK x (by simp only [allNodesList, List.mem_append]; exact Or.inr hx)
    by_cases hn : hasIdNode t n = true
    · obtain ⟨⟨o1, o2, o3, o4, o5, o6, o7⟩, hshapen⟩ :=
        ihn m nid ⟨hltL, hnodL, hOKL, hkeys⟩
      have hnoid : hasIdList t ns = false := by
        refine ((hasId_false_iff t).2 ns).mpr ?_
        intro y hy hyt
        obtain ⟨x0, hx0, hx0t⟩ := hasIdNode_true_exists t n hn
        refine hdisj (List.mem_map_of_mem DNode.id hx0) ?_
        rw [hx0t, ← hyt]
        exact List.mem_map_of_mem DNode.id hy
      have htail := (expandNoop_of_no_id t).2 ns
        (expandNode t n m nid).2.1 (expandNode t n m nid).2.2 hnoid
      have hfull : expandList t (n :: ns) m nid =
          ((expandNode t n m nid).1 :: ns,
           (expandNode t n m nid).2.1, (expandNode t n m nid).2.2) := by
        simp only [expandList]
        rw [htail]
      rw [hfull]
      constructor
      · refine ⟨o1, ?_, ?_, ?_, o5, o6, ?_⟩
        · intro x hx
          simp only [allNodesList, List.mem_append] at hx
          rcases hx with hx | hx
          · exact o2 x hx
          · show x.id < (expandNode t n m nid).2.2
            have := hltR x hx
            omega
        · simp only [allNodesList, List.map_append]
          refine List.nodup_append.mpr ⟨o3, hnodR, ?_⟩
          intro a ha hb
          obtain ⟨x, hx, hxi⟩ := List.mem_map.mp ha
          obtain ⟨y, hy, hyi⟩ := List.mem_map.mp hb
          rcases o7 x hx with hmem2 | hbig
          · rw [hxi] at hmem2
            exact hdisj hmem2 hb
          · have := hltR y hy
            omega
        · intro x hx
          simp only [allNodesList, List.mem_append] at hx
          rcases hx with hx | hx
          · exact o4 x hx
          · have hxt : x.id ≠ t := by
              intro hxt
              obtain ⟨x0, hx0, hx0t⟩ := hasIdNode_true_exists t n hn
              refine hdisj (List.mem_map_of_mem DNode.id hx0) ?_
              rw [hx0t, ← hxt]
              exact List.mem_map_of_mem DNode.id hx
            refine nodeOK_congr _ _ x ?_ (hOKR x hx)
            exact o6 x.id (hltR x hx) hxt
        · intro x hx
          simp only [allNodesList, List.mem_append] at hx
          rcases hx with hx | hx
          · rcases o7 x hx with hmem2 | hbig
            · refine Or.inl ?_
              simp only [allNodesList, List.map_append, List.mem_append]
              exact Or.inl hmem2
            · exact Or.inr hbig
          · refine Or.inl ?_
            simp only [allNodesList, List.map_append, List.mem_append]
            exact Or.inr (List.mem_map_of_mem DNode.id hx)
      · exact List.Forall₂.cons hshapen (forall₂_sameShape_refl ns)
    · rw [Bool.not_eq_true] at hn
      have hhead := (expandNoop_of_no_id t).1 n m nid hn
      have hfull : expandList t (n :: ns) m nid =
          (n :: (expandList t ns m nid).1,
           (expandList t ns m nid).2.1, (expandList t ns m nid).2.2) := by
        simp only [expandList]
        rw [hhead]
      obtain ⟨⟨o1, o2, o3, o4, o5, o6, o7⟩, hshape⟩ :=
        ihns m nid ⟨hltR, hnodR, hOKR, hkeys⟩
      rw [hfull]
      have hLne : ∀ x ∈ allNodesNode n, x.id ≠ t :=
        ((hasId_false_iff t).1 n).mp hn
      constructor
      · refine ⟨o1, ?_, ?_, ?_, o5, o6, ?_⟩
        · intro x hx
          simp only [allNodesList, List.mem_append] at hx
          rcases hx with hx | hx
          · show x.id < (expandList t ns m nid).2.2
            have := hltL x hx
            omega
          · exact o2 x hx
        · simp only [allNodesList, List.map_append]
          refine List.nodup_append.mpr ⟨hnodL, o3, ?_⟩
          intro a ha hb
          obtain ⟨y, hy, hyi⟩ := List.mem_map.mp hb
          rcases o7 y hy with hmem2 | hbig
          · rw [hyi] at hmem2
            exact hdisj ha hmem2
          · obtain ⟨x, hx, hxi⟩ := List.mem_map.mp ha
            have := hltL x hx
            omega
        · intro x hx
          simp only [allNodesList, List.mem_append] at hx
          rcases hx with hx | hx
          · refine nodeOK_congr _ _ x ?_ (hOKL x hx)
            exact o6 x.id (hltL x hx) (hLne x hx)
          · exact o4 x hx
        · intro x hx
          simp only [allNodesList, List.mem_append] at hx
          rcases hx with hx | hx
          · refine Or.inl ?_
            simp only [allNodesList, List.map_append, List.mem_append]
            exact Or.inl (List.mem_map_of_mem DNode.id hx)
          · rcases o7 x hx with hmem2 | hbig
            · refine Or.inl ?_
              simp only [allNodesList, List.map_append, List.mem_append]
              exact Or.inr hmem2
            · exact Or.inr hbig
      · exact List.Forall₂.cons (sameShape_refl n) hshape

/-- The global invariant of reachable tree/registry states: identities are
below the fresh-identity counter and pairwise distinct, every node
individually satisfies nodeOK, and registry keys are below the counter. -/
def TreeInv (st : TreeState) : Prop :=
  (∀ x ∈ allNodesList st.topLevel, x.id < st.nextId) ∧
  ((allNodesList st.topLevel).map DNode.id).Nodup ∧
  (∀ x ∈ allNodesList st.topLevel, nodeOK st.itemElementMap x) ∧
  (∀ e ∈ st.itemElementMap, e.1 < st.nextId)

theorem load_pres (doc : JsonValue) (st : TreeState) (h : TreeInv st) :
    TreeInv (on_loadBtn_clicked doc st) := by
  obtain ⟨hlt, hnodup, hOK, hkeys⟩ := h
  have hkeys' : ∀ e ∈ st.itemElementMap, e.1 < st.nextId + 1 :=
    fun e he => Nat.lt_succ_of_lt (hkeys e he)
  obtain ⟨kids, a1, a2, a3, a4, a5, a6, a7⟩ :=
    ACI_spec doc (DNode.mk st.nextId "" none []) st.itemElementMap
      (st.nextId + 1) hkeys'
  have hr1 : (add_children_to_item (DNode.mk st.nextId "" none []) doc
      st.itemElementMap (st.nextId + 1)).1 =
      DNode.mk st.nextId "" none kids := by
    rw [a1]
    rfl
  have hst : on_loadBtn_clicked doc st =
      ⟨(add_children_to_item (DNode.mk st.nextId "" none []) doc
          st.itemElementMap (st.nextId + 1)).1 :: st.topLevel,
       (add_children_to_item (DNode.mk st.nextId "" none []) doc
          st.itemElementMap (st.nextId + 1)).2.1,
       (add_children_to_item (DNode.mk st.nextId "" none []) doc
          st.itemElementMap (st.nextId + 1)).2.2⟩ := rfl
  rw [hst, hr1]
  have hnone : regLookup st.nextId
      (add_children_to_item (DNode.mk st.nextId "" none []) doc
        st.itemElementMap (st.nextId + 1)).2.1 = none := by
    rw [a6 st.nextId (Nat.lt_succ_self _)]
    exact regLookup_none_of_no_key _ _ (fun e he => Nat.ne_of_lt (hkeys e he))
  have hklabels : ∀ c ∈ kids, c.label ≠ "" := fun c hc => (a3 c hc).2.2.1
  refine ⟨?_, ?_, ?_, ?_⟩
  · intro x hx
    simp only [allNodesList, allNodesNode, List.mem_append, List.mem_cons] at hx
    rcases hx with (hx | hx) | hx
    · subst hx
      show (DNode.mk st.nextId "" none kids).id <
        (add_children_to_item (DNode.mk st.nextId "" none []) doc
          st.itemElementMap (st.nextId + 1)).2.2
      have hii : (DNode.mk st.nextId "" none kids).id = st.nextId := rfl
      rw [hii]
      omega
    · show x.id < (add_children_to_item (DNode.mk st.nextId "" none []) doc
        st.itemElementMap (st.nextId + 1)).2.2
      have := a4 x hx
      omega
    · have h1 := hlt x hx
      show x.id < (add_children_to_item (DNode.mk st.nextId "" none []) doc
        st.itemElementMap (st.nextId + 1)).2.2
      omega
  · simp only [allNodesList, allNodesNode, List.map_append, List.map_cons,
      DNode.id]
    refine List.nodup_append.mpr ⟨?_, hnodup, ?_⟩
    · refine List.nodup_cons.mpr ⟨?_, a5⟩
      intro hmem
      obtain ⟨x, hx, hxi⟩ := List.mem_map.mp hmem
      have := a4 x hx
      omega
    · intro a ha hb
      obtain ⟨y, hy, hyi⟩ := List.mem_map.mp hb
      have hyl := hlt y hy
      rcases List.mem_cons.mp ha with ha | ha
      · subst ha
        omega
      · obtain ⟨x, hx, hxi⟩ := List.mem_map.mp ha
        have := a4 x hx
        omega
  · intro x hx
    simp only [allNodesList, allNodesNode, List.mem_append, List.mem_cons] at hx
    rcases hx with (hx | hx) | hx
    · subst hx
      refine ⟨?_, ?_, ?_, ?_⟩
      · rw [regContains,
          show regLookup (DNode.mk st.nextId "" none kids).id
            (add_children_to_item (DNode.mk st.nextId "" none []) doc
              st.itemElementMap (st.nextId + 1)).2.1 = none from hnone,
          isPendingShape_false_of_labels st.nextId "" none kids hklabels]
        simp
      · rw [show regLookup (DNode.mk st.nextId "" none kids).id
            (add_children_to_item (DNode.mk st.nextId "" none []) doc
              st.itemElementMap (st.nextId + 1)).2.1 = none from hnone]
        rfl
      · intro hco
        rw [regContains,
          show regLookup (DNode.mk st.nextId "" none kids).id
            (add_children_to_item (DNode.mk st.nextId "" none []) doc
              st.itemElementMap (st.nextId + 1)).2.1 = none from hnone] at hco
        simp at hco
      · intro ch hch hchl
        exact absurd hchl (hklabels ch hch)
    · obtain ⟨c, hc, hxc⟩ := mem_allNodesList_exists x kids hx
      exact nodeOK_of_KidOK _ _ _ c (a3 c hc) x hxc
    · refine nodeOK_congr _ _ x ?_ (hOK x hx)
      exact a6 x.id (Nat.lt_succ_of_lt (hlt x hx))
  · intro e he
    exact a7 e he

theorem expandStep_pres (target : Nat) (st : TreeState) (h : TreeInv st) :
    TreeInv (on_treeWidget_itemExpanded target st) := by
  obtain ⟨hlt, hnodup, hOK, hkeys⟩ := h
  obtain ⟨⟨o1, o2, o3, o4, o5, o6, o7⟩, _⟩ :=
    (expand_pres target).2 st.topLevel st.itemElementMap st.nextId
      ⟨hlt, hnodup, hOK, hkeys⟩
  exact ⟨o2, o3, o4, o5⟩

theorem reachable_inv (st : TreeState) (h : ReachableTree st) : TreeInv st := by
  induction h with
  | init =>
    refine ⟨?_, ?_, ?_, ?_⟩
    · intro x hx
      simp [allNodesList] at hx
    · simp [allNodesList]
    · intro x hx
      simp [allNodesList] at hx
    · intro e he
      simp at he
  | load doc st hst ih => exact load_pres doc st ih
  | expand target st hst ih => exact expandStep_pres target st ih

theorem specChildLabels_ne_empty (v : JsonValue) (s : String)
    (hs : s ∈ specChildLabels v) : s ≠ "" := by
  cases v with
  | obj fields =>
    obtain ⟨kv, _, hkv⟩ := List.mem_map.mp hs
    rw [← hkv]
    exact label_key_ne_empty _ _
  | arr elems =>
    obtain ⟨p, _, hp⟩ := List.mem_map.mp hs
    rw [← hp]
    exact label_key_ne_empty _ _
  | int64 i => simp [specChildLabels] at hs
  | uint64 u => simp [specChildLabels] at hs
  | double q => simp [specChildLabels] at hs
  | str t => simp [specChildLabels] at hs
  | bool b => simp [specChildLabels] at hs
  | null => simp [specChildLabels] at hs
  | unknown => simp [specChildLabels] at hs

theorem expandItem_atomic (item : DNode) (m : ItemElementMap) (nid : Nat)
    (v : JsonValue) (hl : regLookup item.id m = some v)
    (hp : isPendingShape item = true) :
    (expandItem item m nid).1.id = item.id ∧
    ((expandItem item m nid).1).children.map DNode.label = specChildLabels v ∧
    (∀ c ∈ ((expandItem item m nid).1).children, c.label ≠ "") ∧
    regLookup item.id (expandItem item m nid).2.1 = none ∧
    expandItem (expandItem item m nid).1 (expandItem item m nid).2.1
        (expandItem item m nid).2.2 =
      ((expandItem item m nid).1, (expandItem item m nid).2.1,
       (expandItem item m nid).2.2) := by
  cases item with
  | mk i l co cs =>
    rcases hcs : cs with _ | ⟨c0, _ | ⟨c1, cs'⟩⟩
    · subst hcs
      simp [isPendingShape] at hp
    · subst hcs
      rw [isPendingShape_mk] at hp
      have hp' : (c0.label == "") = true := hp
      have hrp : removePlaceholder (DNode.mk i l co [c0]) =
          DNode.mk i l co [] := by
        simp only [removePlaceholder, DNode.children]
        rw [if_pos hp']
        rfl
      have hstep : expandItem (DNode.mk i l co [c0]) m nid =
          ((add_children_to_item (DNode.mk i l co []) v m nid).1,
           regErase i (add_children_to_item (DNode.mk i l co []) v m nid).2.1,
           (add_children_to_item (DNode.mk i l co []) v m nid).2.2) := by
        show (match regLookup (DNode.mk i l co [c0]).id m with
          | none => (DNode.mk i l co [c0], m, nid)
          | some element =>
            let r := add_children_to_item
              (removePlaceholder (DNode.mk i l co [c0])) element m nid
            (r.1, regErase (DNode.mk i l co [c0]).id r.2.1, r.2.2)) = _
        rw [hl, hrp]
        rfl
      have hlab : ((add_children_to_item (DNode.mk i l co []) v m nid).1).children.map
          DNode.label = specChildLabels v := by
        have hgen := ACI_labels (DNode.mk i l co []) v m nid
        simpa [DNode.children] using hgen
      have hid := (add_children_to_item_id_label (DNode.mk i l co []) v m nid).1
      have hnone : regLookup (DNode.mk i l co [c0]).id
          (expandItem (DNode.mk i l co [c0]) m nid).2.1 = none := by
        rw [hstep]
        exact regLookup_erase_self i _
      refine ⟨?_, ?_, ?_, hnone, ?_⟩
      · rw [hstep]
        exact hid
      · rw [hstep]
        exact hlab
      · intro c hc
        rw [hstep] at hc
        have hcl : c.label ∈ specChildLabels v := by
          rw [← hlab]
          exact List.mem_map_of_mem DNode.label hc
        exact specChildLabels_ne_empty v c.label hcl
      · rw [hstep]
        have hidA : (add_children_to_item (DNode.mk i l co []) v m nid).1.id =
            i := hid
        have hnoneA : regLookup
            (add_children_to_item (DNode.mk i l co []) v m nid).1.id
            (regErase i
              (add_children_to_item (DNode.mk i l co []) v m nid).2.1) =
            none := by
          rw [hidA]
          exact regLookup_erase_self i _
        show (match regLookup
            (add_children_to_item (DNode.mk i l co []) v m nid).1.id
            (regErase i
              (add_children_to_item (DNode.mk i l co []) v m nid).2.1) with
          | none => ((add_children_to_item (DNode.mk i l co []) v m nid).1,
              regErase i
                (add_children_to_item (DNode.mk i l co []) v m nid).2.1,
              (add_children_to_item (DNode.mk i l co []) v m nid).2.2)
          | some element =>
            let r := add_children_to_item
              (removePlaceholder
                (add_children_to_item (DNode.mk i l co []) v m nid).1)
              element
              (regErase i
                (add_children_to_item (DNode.mk i l co []) v m nid).2.1)
              (add_children_to_item (DNode.mk i l co []) v m nid).2.2
            (r.1, regErase
              (add_children_to_item (DNode.mk i l co []) v m nid).1.id r.2.1,
              r.2.2)) = _
        rw [hnoneA]
    · subst hcs
      simp [isPendingShape] at hp

/-- C5: in every reachable tree/registry state, a display node is a key of
itemElementMap exactly when it currently has the single empty-label
placeholder child, and every registered value is a container (Array or
Object); and expanding a registered pending item is one atomic step: the
item keeps its identity, its children become exactly the one-per-member
labels of the stored value (the empty-label placeholder is gone: every
resulting child label is nonempty), the registry entry is removed, and a
repetition of the step changes nothing, so the entry is removed exactly
once, at the moment the real children are materialized. -/
theorem c5_registry_pending_invariant :
    (∀ st : TreeState, ReachableTree st →
      ∀ nd ∈ allNodesList st.topLevel,
        (regContains nd.id st.itemElementMap = true ↔
          isPendingShape nd = true) ∧
        (regLookup nd.id st.itemElementMap).all JsonValue.isContainer = true) ∧
    (∀ (item : DNode) (m : ItemElementMap) (nid : Nat) (v : JsonValue),
      regLookup item.id m = some v → isPendingShape item = true →
      (expandItem item m nid).1.id = item.id ∧
      ((expandItem item m nid).1).children.map DNode.label =
        specChildLabels v ∧
      (∀ c ∈ ((expandItem item m nid).1).children, c.label ≠ "") ∧
      regLookup item.id (expandItem item m nid).2.1 = none ∧
      expandItem (expandItem item m nid).1 (expandItem item m nid).2.1
          (expandItem item m nid).2.2 =
        ((expandItem item m nid).1, (expandItem item m nid).2.1,
         (expandItem item m nid).2.2)) := by
  constructor
  · intro st hreach nd hnd
    have hinv := reachable_inv st hreach
    have h := hinv.2.2.1 nd hnd
    exact ⟨h.1, h.2.1⟩
  · intro item m nid v hl hp
    exact expandItem_atomic item m nid v hl hp

theorem c5_witness :
    ReachableTree (on_loadBtn_clicked
      (.obj [("a", .obj [("b", .int64 1)])]) ⟨[], [], 0⟩) ∧
    DNode.mk 1 "a: OBJECT" (some (48, 186, 143)) [DNode.mk 2 "" none []] ∈
      allNodesList (on_loadBtn_clicked
        (.obj [("a", .obj [("b", .int64 1)])]) ⟨[], [], 0⟩).topLevel ∧
    ((regContains (DNode.mk 1 "a: OBJECT" (some (48, 186, 143))
          [DNode.mk 2 "" none []]).id
        (on_loadBtn_clicked (.obj [("a", .obj [("b", .int64 1)])])
          ⟨[], [], 0⟩).itemElementMap = true ↔
      isPendingShape (DNode.mk 1 "a: OBJECT" (some (48, 186, 143))
        [DNode.mk 2 "" none []]) = true) ∧
     (regLookup (DNode.mk 1 "a: OBJECT" (some (48, 186, 143))
          [DNode.mk 2 "" none []]).id
        (on_loadBtn_clicked (.obj [("a", .obj [("b", .int64 1)])])
          ⟨[], [], 0⟩).itemElementMap).all JsonValue.isContainer = true) ∧
    regLookup (DNode.mk 1 "a: OBJECT" (some (48, 186, 143))
        [DNode.mk 2 "" none []]).id
      [(1, JsonValue.obj [("b", JsonValue.int64 1)])] =
      some (JsonValue.obj [("b", JsonValue.int64 1)]) ∧
    isPendingShape (DNode.mk 1 "a: OBJECT" (some (48, 186, 143))
      [DNode.mk 2 "" none []]) = true ∧
    ((expandItem (DNode.mk 1 "a: OBJECT" (some (48, 186, 143))
        [DNode.mk 2 "" none []])
        [(1, JsonValue.obj [("b", JsonValue.int64 1)])] 3).1.id =
      (DNode.mk 1 "a: OBJECT" (some (48, 186, 143))
        [DNode.mk 2 "" none []]).id ∧
     ((expandItem (DNode.mk 1 "a: OBJECT" (some (48, 186, 143))
        [DNode.mk 2 "" none []])
        [(1, JsonValue.obj [("b", JsonValue.int64 1)])] 3).1).children.map
        DNode.label =
      specChildLabels (JsonValue.obj [("b", JsonValue.int64 1)]) ∧
     (∀ c ∈ ((expandItem (DNode.mk 1 "a: OBJECT" (some (48, 186, 143))
        [DNode.mk 2 "" none []])
        [(1, JsonValue.obj [("b", JsonValue.int64 1)])] 3).1).children,
       c.label ≠ "") ∧
     regLookup (DNode.mk 1 "a: OBJECT" (some (48, 186, 143))
        [DNode.mk 2 "" none []]).id
       (expandItem (DNode.mk 1 "a: OBJECT" (some (48, 186, 143))
        [DNode.mk 2 "" none []])
        [(1, JsonValue.obj [("b", JsonValue.int64 1)])] 3).2.1 = none ∧
     expandItem
        (expandItem (DNode.mk 1 "a: OBJECT" (some (48, 186, 143))
          [DNode.mk 2 "" none []])
          [(1, JsonValue.obj [("b", JsonValue.int64 1)])] 3).1
        (expandItem (DNode.mk 1 "a: OBJECT" (some (48, 186, 143))
          [DNode.mk 2 "" none []])
          [(1, JsonValue.obj [("b", JsonValue.int64 1)])] 3).2.1
        (expandItem (DNode.mk 1 "a: OBJECT" (some (48, 186, 143))
          [DNode.mk 2 "" none []])
          [(1, JsonValue.obj [("b", JsonValue.int64 1)])] 3).2.2 =
       ((expandItem (DNode.mk 1 "a: OBJECT" (some (48, 186, 143))
          [DNode.mk 2 "" none []])
          [(1, JsonValue.obj [("b", JsonValue.int64 1)])] 3).1,
        (expandItem (DNode.mk 1 "a: OBJECT" (some (48, 186, 143))
          [DNode.mk 2 "" none []])
          [(1, JsonValue.obj [("b", JsonValue.int64 1)])] 3).2.1,
        (expandItem (DNode.mk 1 "a: OBJECT" (some (48, 186, 143))
          [DNode.mk 2 "" none []])
          [(1, JsonValue.obj [("b", JsonValue.int64 1)])] 3).2.2)) := by
  have hreach : ReachableTree (on_loadBtn_clicked
      (.obj [("a", .obj [("b", .int64 1)])]) ⟨[], [], 0⟩) :=
    ReachableTree.load _ _ ReachableTree.init
  have hmem : DNode.mk 1 "a: OBJECT" (some (48, 186, 143))
      [DNode.mk 2 "" none []] ∈
      allNodesList (on_loadBtn_clicked
        (.obj [("a", .obj [("b", .int64 1)])]) ⟨[], [], 0⟩).topLevel := by
    have he : allNodesList (on_loadBtn_clicked
        (.obj [("a", .obj [("b", .int64 1)])]) ⟨[], [], 0⟩).topLevel =
        [DNode.mk 0 "" none [DNode.mk 1 "a: OBJECT" (some (48, 186, 143))
          [DNode.mk 2 "" none []]],
         DNode.mk 1 "a: OBJECT" (some (48, 186, 143)) [DNode.mk 2 "" none []],
         DNode.mk 2 "" none []] := rfl
    rw [he]
    exact List.mem_cons_of_mem _ (List.mem_cons_self _ _)
  have hl : regLookup (DNode.mk 1 "a: OBJECT" (some (48, 186, 143))
      [DNode.mk 2 "" none []]).id
      [(1, JsonValue.obj [("b", JsonValue.int64 1)])] =
      some (JsonValue.obj [("b", JsonValue.int64 1)]) := rfl
  have hp : isPendingShape (DNode.mk 1 "a: OBJECT" (some (48, 186, 143))
      [DNode.mk 2 "" none []]) = true := by decide
  exact ⟨hreach, hmem,
    c5_registry_pending_invariant.1 _ hreach _ hmem,
    hl, hp,
    c5_registry_pending_invariant.2
      (DNode.mk 1 "a: OBJECT" (some (48, 186, 143)) [DNode.mk 2 "" none []])
      [(1, JsonValue.obj [("b", JsonValue.int64 1)])] 3
      (JsonValue.obj [("b", JsonValue.int64 1)]) hl hp⟩
